import Mathlib

/-
Verification development for the altcoin scalp bot
(src/bot/{trade_engine,strategy,indicators,binance_client}.py).

Shallow embedding conventions:
* machine floats are modelled as exact rationals (ℚ);
* pandas NaN ("undefined") values are modelled as `none : Option ℚ`,
  and NaN comparisons (which are `False` in pandas/numpy) as
  comparisons that return `false` whenever an operand is `none`;
* Python exceptions are modelled with `Except` / explicit outcome sums;
* the only irrational operation in the source, the floating point
  square root used through `std()`, is embedded by rewriting each
  comparison `sqrt a ⋈ b` into its exact rational characterisation
  (`sqrtLt`, `sqrtGt` below, proved correct against `Real.sqrt`), or by
  parameterising over the square-root routine where the value itself
  is stored in a column.
-/

-- ──────────────────────────────────────────────────────────────
-- Basic data model
-- ──────────────────────────────────────────────────────────────

/-- One OHLCV candle row (columns open/high/low/close/volume of the
klines DataFrame built in `TradeEngine._load_klines`). -/
structure Bar where
  o : ℚ
  h : ℚ
  l : ℚ
  c : ℚ
  v : ℚ
deriving DecidableEq, Repr

/-- Last `n` elements of a list — pandas `Series.tail(n)` /
numpy `xs[-n:]`. -/
def tailN {α : Type} (n : ℕ) (xs : List α) : List α :=
  xs.drop (xs.length - n)

/-- Arithmetic mean — pandas `Series.mean()` (empty input is modelled
as 0; pandas yields NaN there, callers in scope never pass it on). -/
def listMean (xs : List ℚ) : ℚ :=
  xs.sum / (xs.length : ℚ)

/-- Population variance — square of pandas `std(ddof=0)`, used by the
`ta` Bollinger band computation (the spec fixes ddof=0: "rolling
standard deviation (population)"). -/
def popVar (xs : List ℚ) : ℚ :=
  ((xs.map fun x => (x - listMean xs) ^ 2).sum) / (xs.length : ℚ)

/-- Sample variance — square of pandas `std()` (ddof=1), used by
`TradeEngine._vol_ok`. -/
def sampleVar (xs : List ℚ) : ℚ :=
  ((xs.map fun x => (x - listMean xs) ^ 2).sum) / ((xs.length : ℚ) - 1)

/-- Exact rational decision of `Real.sqrt a < b` (for `0 ≤ a`): the
float comparison `sqrt a < b` of the source, embedded without
computing the irrational square root. -/
def sqrtLt (a b : ℚ) : Bool :=
  decide (0 < b) && decide (a < b ^ 2)

/-- Exact rational decision of `b < Real.sqrt a` (for `0 ≤ a`). -/
def sqrtGt (a b : ℚ) : Bool :=
  decide (b < 0) || decide (b ^ 2 < a)

theorem sqrtLt_correct (a b : ℚ) :
    sqrtLt a b = true ↔ Real.sqrt (a:ℝ) < (b:ℝ) := by
  unfold sqrtLt
  constructor
  · intro hc
    simp only [Bool.and_eq_true, decide_eq_true_eq] at hc
    obtain ⟨hb, hab⟩ := hc
    have hb' : (0:ℝ) < (b:ℝ) := by exact_mod_cast hb
    rw [show Real.sqrt (a:ℝ) < (b:ℝ) ↔ (a:ℝ) < (b:ℝ) ^ 2 from Real.sqrt_lt' hb']
    exact_mod_cast hab
  · intro hlt
    have hb' : (0:ℝ) < (b:ℝ) := lt_of_le_of_lt (Real.sqrt_nonneg _) hlt
    have hab : (a:ℝ) < (b:ℝ) ^ 2 := (Real.sqrt_lt' hb').mp hlt
    simp only [Bool.and_eq_true, decide_eq_true_eq]
    constructor
    · exact_mod_cast hb'
    · exact_mod_cast hab

theorem sqrtGt_correct (a b : ℚ) :
    sqrtGt a b = true ↔ (b:ℝ) < Real.sqrt (a:ℝ) := by
  unfold sqrtGt
  constructor
  · intro hc
    simp only [Bool.or_eq_true, decide_eq_true_eq] at hc
    rcases hc with hb | hab
    · exact lt_of_lt_of_le (by exact_mod_cast hb) (Real.sqrt_nonneg _)
    · have : (b:ℝ) ^ 2 < (a:ℝ) := by exact_mod_cast hab
      rcases le_or_lt 0 (b:ℝ) with hb0 | hb0
      · exact (Real.lt_sqrt hb0).mpr this
      · exact lt_of_lt_of_le hb0 (Real.sqrt_nonneg _)
  · intro hlt
    simp only [Bool.or_eq_true, decide_eq_true_eq]
    rcases lt_or_le (b:ℝ) 0 with hb0 | hb0
    · left; exact_mod_cast hb0
    · right
      have : (b:ℝ) ^ 2 < (a:ℝ) := (Real.lt_sqrt hb0).mp hlt
      exact_mod_cast this

-- ──────────────────────────────────────────────────────────────
-- Position sizing (TradeEngine._round_qty / _position_size)
-- ──────────────────────────────────────────────────────────────

/-- Truncation toward zero, matching Python `Decimal.__floordiv__`
(which truncates toward zero rather than flooring). -/
def qtrunc (x : ℚ) : ℤ :=
  if 0 ≤ x then ⌊x⌋ else ⌈x⌉

/-- Source `TradeEngine._round_qty`: `float((Decimal(qty) // step) * step)` —
truncate the quantity to an integer multiple of the lot step. -/
def round_qty (step qty : ℚ) : ℚ :=
  (qtrunc (qty / step) : ℚ) * step

/-- Fuel bound for the `while qty * price < tgt_notional * 0.97` loop
of `TradeEngine._position_size`: the number of `+= step` iterations
still needed from `qty`, plus one. -/
def sz_fuel (price tgt step qty : ℚ) : ℕ :=
  (⌈(tgt * (97/100) - qty * price) / (step * price)⌉).toNat + 1

/-- The `while qty * price < tgt_notional * 0.97: qty += float(step)`
loop of `TradeEngine._position_size`, as fuelled structural recursion.
`sz_fuel` supplies sufficient fuel whenever `0 < price` and
`0 < step` (theorem `sz_go_exit`); for non-positive `price`/`step`
the Python loop would not terminate. -/
def sz_go (price tgt step : ℚ) : ℕ → ℚ → ℚ
  | 0, qty => qty
  | Nat.succ n, qty =>
      if qty * price < tgt * (97/100) then sz_go price tgt step n (qty + step)
      else qty

/-- Source `TradeEngine._position_size`: target notional
`bal * pos_pct * leverage`, truncated division by the price, top-up
loop to 97% of the target, floored at one lot step. -/
def position_size (bal posPct lev price step : ℚ) : ℚ :=
  let tgt := bal * posPct * lev
  let q0 := round_qty step (tgt / price)
  max (sz_go price tgt step (sz_fuel price tgt step q0) q0) step

theorem sz_go_exit (price tgt step : ℚ) (hp : 0 < price) (hs : 0 < step) :
    ∀ n q, sz_fuel price tgt step q ≤ n →
      ¬ (sz_go price tgt step n q * price < tgt * (97/100)) := by
  intro n
  induction n with
  | zero =>
      intro q hq
      exact absurd hq (by simp [sz_fuel])
  | succ n ih =>
      intro q hq
      by_cases hc : q * price < tgt * (97/100)
      · have hd : 0 < step * price := mul_pos hs hp
        have hxpos : 0 < (tgt * (97/100) - q * price) / (step * price) :=
          div_pos (by linarith) hd
        have hceil : 0 < ⌈(tgt * (97/100) - q * price) / (step * price)⌉ :=
          Int.ceil_pos.mpr hxpos
        have hstep :
            (tgt * (97/100) - (q + step) * price) / (step * price)
              = (tgt * (97/100) - q * price) / (step * price) - 1 := by
          field_simp
          ring
        have hfuel : sz_fuel price tgt step (q + step)
            = sz_fuel price tgt step q - 1 := by
          unfold sz_fuel
          rw [hstep, Int.ceil_sub_one]
          omega
        have hle : sz_fuel price tgt step (q + step) ≤ n := by
          have h1 : 1 ≤ sz_fuel price tgt step q := by
            unfold sz_fuel
            omega
          omega
        simpa [sz_go, hc] using ih (q + step) hle
      · simpa [sz_go, hc] using hc

theorem sz_go_add (price tgt step : ℚ) :
    ∀ n q, ∃ k : ℕ, sz_go price tgt step n q = q + (k : ℚ) * step := by
  intro n
  induction n with
  | zero => intro q; exact ⟨0, by simp [sz_go]⟩
  | succ n ih =>
      intro q
      by_cases hc : q * price < tgt * (97/100)
      · obtain ⟨k, hk⟩ := ih (q + step)
        refine ⟨k + 1, ?_⟩
        simp only [sz_go, hc, if_true]
        rw [hk]
        push_cast
        ring
      · exact ⟨0, by simp [sz_go, hc]⟩

theorem sz_go_last (price tgt step : ℚ) :
    ∀ n q, sz_go price tgt step n q = q ∨
      (sz_go price tgt step n q - step) * price < tgt * (97/100) := by
  intro n
  induction n with
  | zero => intro q; exact Or.inl rfl
  | succ n ih =>
      intro q
      by_cases hc : q * price < tgt * (97/100)
      · rcases ih (q + step) with h | h
        · right
          simp only [sz_go, hc, if_true, h]
          simp only [add_sub_cancel_right]
          exact hc
        · right
          simpa [sz_go, hc] using h
      · exact Or.inl (by simp [sz_go, hc])

/-- The quantity `TradeEngine._position_size` starts its top-up loop
from: the truncated multiple of the lot step. -/
def sz_start (bal posPct lev price step : ℚ) : ℚ :=
  round_qty step ((bal * posPct * lev) / price)

/-- The value of the top-up loop of `TradeEngine._position_size` at
exit (before the final `max` with one lot step). -/
def sz_result (bal posPct lev price step : ℚ) : ℚ :=
  sz_go price (bal * posPct * lev) step
    (sz_fuel price (bal * posPct * lev) step (sz_start bal posPct lev price step))
    (sz_start bal posPct lev price step)

theorem position_size_eq (bal posPct lev price step : ℚ) :
    position_size bal posPct lev price step
      = max (sz_result bal posPct lev price step) step := rfl

theorem sz_result_exit (bal posPct lev price step : ℚ)
    (hp : 0 < price) (hs : 0 < step) :
    ¬ (sz_result bal posPct lev price step * price
        < (bal * posPct * lev) * (97/100)) :=
  sz_go_exit price (bal * posPct * lev) step hp hs _ _ le_rfl

theorem sz_result_mul (bal posPct lev price step : ℚ) :
    ∃ n : ℤ, sz_start bal posPct lev price step = (n : ℚ) * step ∧
      ∃ k : ℕ, sz_result bal posPct lev price step
        = ((n + k : ℤ) : ℚ) * step := by
  obtain ⟨k, hk⟩ := sz_go_add price (bal * posPct * lev) step
    (sz_fuel price (bal * posPct * lev) step (sz_start bal posPct lev price step))
    (sz_start bal posPct lev price step)
  refine ⟨qtrunc (((bal * posPct * lev) / price) / step), rfl, k, ?_⟩
  rw [sz_result, hk]
  show sz_start bal posPct lev price step + (k : ℚ) * step = _
  rw [show sz_start bal posPct lev price step
      = ((qtrunc (((bal * posPct * lev) / price) / step) : ℤ) : ℚ) * step from rfl]
  push_cast
  ring

/-- C2: with positive price and positive lot step, the sizer returns a
non-negative integer multiple of the lot step; whenever the result is
positive its notional is at least 97% of
`balance * allocation_fraction * leverage`; and the result is zero
only if that target notional is non-positive (in fact the result is
never zero: the final `max` floors it at one lot step). -/
theorem position_size_spec (bal posPct lev price step : ℚ)
    (hp : 0 < price) (hs : 0 < step) :
    (∃ n : ℤ, 0 ≤ n ∧
      position_size bal posPct lev price step = (n : ℚ) * step) ∧
    (0 < position_size bal posPct lev price step →
      (97/100) * (bal * posPct * lev)
        ≤ position_size bal posPct lev price step * price) ∧
    (position_size bal posPct lev price step = 0 →
      bal * posPct * lev ≤ 0) := by
  have hexit := sz_result_exit bal posPct lev price step hp hs
  have hnot : (bal * posPct * lev) * (97/100)
      ≤ sz_result bal posPct lev price step * price := le_of_not_lt hexit
  have hstep_le : step ≤ position_size bal posPct lev price step := by
    rw [position_size_eq]; exact le_max_right _ _
  refine ⟨?_, ?_, ?_⟩
  · obtain ⟨n, hn0, k, hk⟩ := sz_result_mul bal posPct lev price step
    refine ⟨max (n + k) 1, ?_, ?_⟩
    · have : (1:ℤ) ≤ max (n + k) 1 := le_max_right _ _
      omega
    · rw [position_size_eq, hk]
      rw [show ((max (n + k) 1 : ℤ) : ℚ) = max ((n + k : ℤ) : ℚ) ((1:ℤ) : ℚ) by
        exact_mod_cast Int.cast_max]
      rw [max_mul_of_nonneg _ _ (le_of_lt hs)]
      norm_num
  · intro hpos
    rw [position_size_eq]
    rcases max_choice (sz_result bal posPct lev price step) step with hmx | hmx
    · rw [hmx]; linarith
    · rw [hmx]
      have hle : sz_result bal posPct lev price step ≤ step := by
        by_contra hcon
        push_neg at hcon
        rw [max_eq_left (le_of_lt hcon)] at hmx
        nlinarith
      have := mul_le_mul_of_nonneg_right hle (le_of_lt hp)
      linarith
  · intro h0
    exfalso
    rw [h0] at hstep_le
    linarith

/-- Witness for `position_size_spec` at spec Scenario B: balance 1000,
allocation 0.3, leverage 10, price 50, step 0.01. -/
theorem position_size_spec_witness :
    (0:ℚ) < 50 ∧ (0:ℚ) < 1/100 ∧
    ((∃ n : ℤ, 0 ≤ n ∧
      position_size 1000 (3/10) 10 50 (1/100) = (n : ℚ) * (1/100)) ∧
    (0 < position_size 1000 (3/10) 10 50 (1/100) →
      (97/100) * (1000 * (3/10) * 10)
        ≤ position_size 1000 (3/10) 10 50 (1/100) * 50) ∧
    (position_size 1000 (3/10) 10 50 (1/100) = 0 →
      (1000:ℚ) * (3/10) * 10 ≤ 0)) :=
  ⟨by norm_num, by norm_num,
    position_size_spec 1000 (3/10) 10 50 (1/100) (by norm_num) (by norm_num)⟩

/-- C9: the top-up loop of the sizer terminates — starting from the
truncated quantity it performs finitely many `+= step` increments and
reaches a state in which the loop guard is false — and when a single
lot step alone has notional at or above the target notional, the sizer
returns exactly one lot step. -/
theorem position_size_terminates_floor (bal posPct lev price step : ℚ)
    (hp : 0 < price) (hs : 0 < step) :
    (∃ k : ℕ, sz_result bal posPct lev price step
        = sz_start bal posPct lev price step + (k : ℚ) * step ∧
      ¬ (sz_result bal posPct lev price step * price
          < (bal * posPct * lev) * (97/100))) ∧
    (bal * posPct * lev ≤ step * price →
      position_size bal posPct lev price step = step) := by
  constructor
  · obtain ⟨k, hk⟩ := sz_go_add price (bal * posPct * lev) step
      (sz_fuel price (bal * posPct * lev) step (sz_start bal posPct lev price step))
      (sz_start bal posPct lev price step)
    exact ⟨k, hk, sz_result_exit bal posPct lev price step hp hs⟩
  · intro hfloor
    have hps : 0 < price * step := mul_pos hp hs
    obtain ⟨n, hn, k, hk⟩ := sz_result_mul bal posPct lev price step
    have hx : ((bal * posPct * lev) / price) / step
        = (bal * posPct * lev) / (price * step) := by
      rw [div_div]
    have hxle : (bal * posPct * lev) / (price * step) ≤ 1 := by
      rw [div_le_one hps]
      linarith
    have hn1 : n ≤ 1 := by
      have : qtrunc (((bal * posPct * lev) / price) / step) = n := by
        have heq : ((qtrunc (((bal * posPct * lev) / price) / step) : ℤ) : ℚ) * step
            = (n : ℚ) * step := by
          rw [← hn]; rfl
        have hcancel := mul_right_cancel₀ (ne_of_gt hs) heq
        exact_mod_cast hcancel
      rw [← this]
      unfold qtrunc
      rw [hx]
      split
      · calc ⌊(bal * posPct * lev) / (price * step)⌋
            ≤ ⌊(1:ℚ)⌋ := Int.floor_le_floor hxle
          _ = 1 := by norm_num
      · rename_i hneg
        push_neg at hneg
        calc ⌈(bal * posPct * lev) / (price * step)⌉
            ≤ ⌈(0:ℚ)⌉ := Int.ceil_le_ceil (le_of_lt hneg)
          _ = 0 := by norm_num
          _ ≤ 1 := by norm_num
    have hres_le : sz_result bal posPct lev price step ≤ step := by
      rcases sz_go_last price (bal * posPct * lev) step
        (sz_fuel price (bal * posPct * lev) step (sz_start bal posPct lev price step))
        (sz_start bal posPct lev price step) with hcase | hcase
      · rw [sz_result, hcase, hn]
        have : ((n:ℚ)) ≤ 1 := by exact_mod_cast hn1
        calc (n:ℚ) * step ≤ 1 * step :=
              mul_le_mul_of_nonneg_right this (le_of_lt hs)
          _ = step := one_mul step
      · rw [← sz_result] at hcase
        rw [hk] at hcase ⊢
        have h97 : (((n + k : ℤ) : ℚ) * step - step) * price
            < (97/100) * (step * price) := by
          calc (((n + k : ℤ) : ℚ) * step - step) * price
              < (bal * posPct * lev) * (97/100) := hcase
            _ ≤ (step * price) * (97/100) :=
                mul_le_mul_of_nonneg_right hfloor (by norm_num)
            _ = (97/100) * (step * price) := by ring
        have hsp : 0 < step * price := mul_pos hs hp
        have hint : ((n + k : ℤ) : ℚ) - 1 < 97/100 := by
          have hrw : (((n + k : ℤ) : ℚ) * step - step) * price
              = (((n + k : ℤ) : ℚ) - 1) * (step * price) := by ring
          rw [hrw] at h97
          by_contra hcon
          push_neg at hcon
          nlinarith
        have hnk1 : (n + k : ℤ) ≤ 1 := by
          by_contra hcon
          push_neg at hcon
          have h2 : (2:ℤ) ≤ n + k := hcon
          have : (2:ℚ) ≤ ((n + k : ℤ) : ℚ) := by exact_mod_cast h2
          linarith
        have : ((n + k : ℤ) : ℚ) ≤ 1 := by exact_mod_cast hnk1
        calc ((n + k : ℤ) : ℚ) * step ≤ 1 * step :=
              mul_le_mul_of_nonneg_right this (le_of_lt hs)
          _ = step := one_mul step
    rw [position_size_eq]
    exact max_eq_right hres_le

/-- Witness for `position_size_terminates_floor`: balance 1000,
allocation 0.3, leverage 10 (target notional 3000), price 50 and a
large lot step 100 whose single-step notional 5000 exceeds the
target. -/
theorem position_size_terminates_floor_witness :
    (0:ℚ) < 50 ∧ (0:ℚ) < 100 ∧
    ((∃ k : ℕ, sz_result 1000 (3/10) 10 50 100
        = sz_start 1000 (3/10) 10 50 100 + (k : ℚ) * 100 ∧
      ¬ (sz_result 1000 (3/10) 10 50 100 * 50
          < (1000 * (3/10) * 10) * (97/100))) ∧
    (1000 * (3/10) * 10 ≤ (100:ℚ) * 50 →
      position_size 1000 (3/10) 10 50 100 = 100)) :=
  ⟨by norm_num, by norm_num,
    position_size_terminates_floor 1000 (3/10) 10 50 100
      (by norm_num) (by norm_num)⟩

-- ──────────────────────────────────────────────────────────────
-- Indicator columns used by strategy.ttm_entry_signal
-- (the `ta` library calls of strategy._add_indicators, modelled from
--  the spec's §4.1 formulas: Bollinger = rolling mean ± 2·population
--  std over 20 bars, Keltner = EMA ± 1.5·ATR, ATR = Wilder smoothing
--  of the true range, RSI = Wilder-smoothed up/down moves)
-- ──────────────────────────────────────────────────────────────

/-- Rolling window computation — pandas `Series.rolling(w)` with the
default `min_periods = w`: position `t` is undefined (NaN) until a
full window of `w` observations is available. -/
def rollingApply (w : ℕ) (f : List ℚ → ℚ) (xs : List ℚ) : List (Option ℚ) :=
  (List.range xs.length).map fun t =>
    if t + 1 < w then none
    else some (f (tailN w (xs.take (t + 1))))

/-- Tail of pandas `ewm(alpha, adjust=False).mean()`:
`e[t] = (1-alpha)*e[t-1] + alpha*x[t]`. -/
def ewmAux (a e : ℚ) : List ℚ → List ℚ
  | [] => []
  | x :: xs =>
      let e2 := (1 - a) * e + a * x
      e2 :: ewmAux a e2 xs

/-- pandas `ewm(alpha=a, adjust=False).mean()`, seeded with the first
observation. -/
def ewmAdjFalse (a : ℚ) : List ℚ → List ℚ
  | [] => []
  | x :: xs => x :: ewmAux a x xs

/-- Consecutive differences — pandas `Series.diff(1)` without the
leading NaN (element `i` is `xs[i+1] - xs[i]`). -/
def diffs (xs : List ℚ) : List ℚ :=
  (xs.zip xs.tail).map fun p => p.2 - p.1

/-- Modelled from the spec: Wilder RSI as computed by the external
`ta.momentum.RSIIndicator` the source calls (absent from src/):
up/down moves smoothed with `ewm(alpha=1/period, adjust=False,
min_periods=period)`; RSI 100 when the smoothed down-move is zero.
Position `t` of the column is undefined until `period` differences
have been observed. -/
def rsiCol (period : ℕ) (closes : List ℚ) : List (Option ℚ) :=
  let ds := diffs closes
  let ups := ds.map fun d => if 0 < d then d else 0
  let dns := ds.map fun d => if d < 0 then -d else 0
  let eu := ewmAdjFalse (1 / (period : ℚ)) ups
  let ed := ewmAdjFalse (1 / (period : ℚ)) dns
  (List.range closes.length).map fun t =>
    if t < period then none
    else
      let u := eu.getD (t - 1) 0
      let d := ed.getD (t - 1) 0
      some (if d = 0 then 100 else 100 - 100 / (1 + u / d))

/-- The default Bar for out-of-range list reads (never reached on the
index ranges used by the source). -/
def defBar : Bar := ⟨0, 0, 0, 0, 0⟩

/-- True range at row `t` — max(high-low, |high-prevClose|,
|low-prevClose|); the first row (no previous close) contributes
high-low, matching the NaN-skipping row max of the `ta` library. -/
def trAt (bars : List Bar) (t : ℕ) : ℚ :=
  let b := bars.getD t defBar
  if t = 0 then b.h - b.l
  else
    let pc := (bars.getD (t - 1) defBar).c
    max (b.h - b.l) (max |b.h - pc| |b.l - pc|)

/-- Modelled from the spec: ATR value at row `t` for window `w` —
Wilder smoothing `atr[t] = (atr[t-1]*(w-1) + tr[t]) / w`, seeded at
row `w-1` with the arithmetic mean of the first `w` true ranges
(the `ta.volatility.AverageTrueRange` computation; rows before the
seed are undefined and modelled as 0 here, masked by `atrCol`). -/
def atrVal (w : ℕ) (bars : List Bar) : ℕ → ℚ
  | 0 => if w = 1 then trAt bars 0 else 0
  | t + 1 =>
      if t + 2 < w then 0
      else if t + 2 = w then
        listMean ((List.range w).map (trAt bars))
      else ((w : ℚ) - 1) * atrVal w bars t / (w : ℚ) + trAt bars (t + 1) / (w : ℚ)

/-- ATR column: undefined (NaN) before a full window, Wilder-smoothed
true range afterwards. -/
def atrCol (w : ℕ) (bars : List Bar) : List (Option ℚ) :=
  (List.range bars.length).map fun t =>
    if t + 1 < w then none else some (atrVal w bars t)

/-- Width of the Keltner channel of `strategy._add_indicators`:
`kc_w = kc_h - kc_l = (ema + 1.5*atr) - (ema - 1.5*atr) = 3*atr`
(the EMA term cancels, so the width depends only on the ATR). -/
def kcWCol (bars : List Bar) : List (Option ℚ) :=
  (atrCol 20 bars).map (Option.map fun a => 3 * a)

/-- Square of the Bollinger band width of `strategy._add_indicators`:
`bb_w = bb_h - bb_l = 4*std`, so `bb_w^2 = 16*(population variance)`.
The squared form keeps the column rational; comparisons against it go
through `sqrtLt` / `sqrtGt`. -/
def bbWSqCol (closes : List ℚ) : List (Option ℚ) :=
  (rollingApply 20 popVar closes).map (Option.map fun v => 16 * v)

/-- Float comparison `sqrt a < b` lifted to NaN-aware columns: any NaN
operand compares `False` in pandas. -/
def optSqrtLt : Option ℚ → Option ℚ → Bool
  | some a, some b => sqrtLt a b
  | _, _ => false

/-- Float comparison `b < sqrt a` lifted to NaN-aware columns. -/
def optSqrtGt : Option ℚ → Option ℚ → Bool
  | some a, some b => sqrtGt a b
  | _, _ => false

/-- The squeeze test of `strategy.ttm_entry_signal`:
`bb_w.iloc[-2] < kc_w.iloc[-2] and bb_w.iloc[-1] > kc_w.iloc[-1]`
(previous bar still in squeeze, current bar released), with `bb_w`
carried squared (see `bbWSqCol`). -/
def squeeze_release (bars : List Bar) : Bool :=
  let n := bars.length
  let bb := bbWSqCol (bars.map Bar.c)
  let kc := kcWCol bars
  optSqrtLt (bb.getD (n - 2) none) (kc.getD (n - 2) none) &&
    optSqrtGt (bb.getD (n - 1) none) (kc.getD (n - 1) none)

-- ──────────────────────────────────────────────────────────────
-- Volume profile VAH (strategy._volume_profile_vah)
-- ──────────────────────────────────────────────────────────────

/-- Minimum of a price array — numpy `prices.min()` (0 on the empty
array, where numpy raises; callers in scope pass non-empty data). -/
def listMinD (xs : List ℚ) : ℚ := xs.foldl min (xs.headD 0)

/-- Maximum of a price array — numpy `prices.max()`. -/
def listMaxD (xs : List ℚ) : ℚ := xs.foldl max (xs.headD 0)

/-- numpy `linspace(a, b, 50)`: 50 equally spaced bin edges from `a`
to `b` inclusive. -/
def linspace50 (a b : ℚ) : List ℚ :=
  (List.range 50).map fun i : ℕ => a + (i : ℚ) * (b - a) / 49

/-- numpy `digitize(x, bins)` with the default `right=False` over
monotone bins: the number of bin edges `≤ x`. -/
def digitizeIdx (edges : List ℚ) (x : ℚ) : ℕ :=
  (edges.filter fun e => decide (e ≤ x)).length

/-- Total volume accumulated in bucket `b` — the entry
`vol_in_bin[b]` built by the `for i, v in zip(idx, vols)` loop. -/
def binVol (idxs : List ℕ) (vols : List ℚ) (b : ℕ) : ℚ :=
  (((idxs.zip vols).filter fun p => p.1 == b).map Prod.snd).sum

/-- The `for b, v in sorted_bins` loop of
`strategy._volume_profile_vah`: walk the buckets in the given order,
accumulate volume, and return the (clamped) upper edge of the first
bucket at which `acc / total >= 0.7`; fall through to the maximum
price. Rational division by zero is 0, which matches the numpy NaN
comparison being `False` when the total volume is 0. -/
def vahLoop (edges : List ℚ) (pmax total : ℚ) (binv : ℕ → ℚ) :
    List ℕ → ℚ → ℚ
  | [], _ => pmax
  | b :: ks, acc =>
      let acc2 := acc + binv b
      if (7 : ℚ) / 10 ≤ acc2 / total then edges.getD (min b 49) 0
      else vahLoop edges pmax total binv ks acc2

/-- The ascending bucket-index order in which
`strategy._volume_profile_vah` processes `sorted(vol_in_bin.items())`:
the appearing bucket indices in increasing order (digitize indices lie
in 0..50 for 50 edges). -/
def vahKeys (idxs : List ℕ) : List ℕ :=
  (List.range 51).filter fun b => idxs.contains b

/-- The bin edges `np.linspace(prices.min(), prices.max(), 50)` of
`strategy._volume_profile_vah` for a price window. -/
def vahEdges (segC : List ℚ) : List ℚ :=
  linspace50 (listMinD segC) (listMaxD segC)

/-- The digitize indices `np.digitize(prices, bins)` of
`strategy._volume_profile_vah` for a price window. -/
def vahIdxs (segC : List ℚ) : List ℕ :=
  segC.map (digitizeIdx (vahEdges segC))

/-- Source `total_vol = sum(vol_in_bin.values())` of
`strategy._volume_profile_vah`: the dictionary values are exactly the
per-bucket volumes of the appearing buckets. -/
def vahTotal (segC segV : List ℚ) : ℚ :=
  ((vahKeys (vahIdxs segC)).map (binVol (vahIdxs segC) segV)).sum

/-- Body of `strategy._volume_profile_vah` on an already-windowed
price/volume segment. -/
def vahCore (segC segV : List ℚ) : ℚ :=
  vahLoop (vahEdges segC) (listMaxD segC) (vahTotal segC segV)
    (binVol (vahIdxs segC) segV) (vahKeys (vahIdxs segC)) 0

/-- Source `strategy._volume_profile_vah`: volume-weighted histogram over 50
equal-width price bins of the trailing `lookback` closes; returns the
upper edge of the first bucket (in ascending price order) at which the
cumulative volume reaches 70% of the total, or the maximum price when
no bucket reaches it (in particular when total volume is zero). -/
def volume_profile_vah (closes vols : List ℚ) (lookback : ℕ) : ℚ :=
  vahCore (tailN lookback closes) (tailN lookback vols)

-- ──────────────────────────────────────────────────────────────
-- Entry predicate (strategy.ttm_entry_signal)
-- ──────────────────────────────────────────────────────────────

/-- VAH breakout test of `strategy.ttm_entry_signal`:
`df.close.iloc[-1] > _volume_profile_vah(df, lookback=60)`. -/
def vah_break (bars : List Bar) : Bool :=
  decide (volume_profile_vah (bars.map Bar.c) (bars.map Bar.v) 60
    < (bars.map Bar.c).getLastD 0)

/-- Source `df.rsi.iloc[-1]` of `strategy.ttm_entry_signal` (RSI window 14). -/
def rsi_last (bars : List Bar) : Option ℚ :=
  (rsiCol 14 (bars.map Bar.c)).getD (bars.length - 1) none

/-- Source `strategy.ttm_entry_signal`: refuses series shorter than 100 bars,
otherwise requires squeeze release ∧ close above VAH ∧ RSI ≥ 65
(an undefined RSI compares `False`, as in pandas). -/
def ttm_entry_signal (bars : List Bar) : Bool :=
  if bars.length < 100 then false
  else
    squeeze_release bars && vah_break bars &&
      (match rsi_last bars with
       | none => false
       | some r => decide (65 ≤ r))

-- ──────────────────────────────────────────────────────────────
-- C5: spec Scenario A (entry predicate on a 25-bar series)
-- ──────────────────────────────────────────────────────────────

/-- A quiet bar: close 100, wide high-low range (so the Keltner
channel stays wide while closes barely move — squeeze on). -/
def baseBar : Bar := ⟨100, 110, 90, 100, 1⟩

/-- Sharp down bar to 28 (sets up the upcoming RSI ratio). -/
def barA : Bar := ⟨100, 38, 18, 28, 1⟩

/-- Breakout bar to 184: the Bollinger width explodes past the
Keltner width (squeeze release), the close clears the VAH, and the
Wilder-smoothed up/down moves give RSI exactly 70. -/
def barB : Bar := ⟨28, 194, 174, 184, 1⟩

/-- The 25-bar series of spec Scenario A: squeeze release on the last
bar, close above VAH, RSI 70. -/
def df25 : List Bar := List.replicate 23 baseBar ++ [barA, barB]

/-- The same price action padded to 100 bars, the minimum length the
source's entry predicate accepts. -/
def df100 : List Bar := List.replicate 98 baseBar ++ [barA, barB]

set_option maxRecDepth 200000 in
/-- C5 counterexample: a 25-bar series on which a squeeze release
occurs on bar 24, bar 24's close (184) exceeds the computed VAH
(4960/49 ≈ 101.2) and the RSI reads exactly 70 ≥ threshold 65 — yet
`ttm_entry_signal` returns false, because the source refuses every
series shorter than 100 bars (`if len(df) < 100: return False`). -/
theorem ttm_scenario_a_25_false :
    df25.length = 25 ∧ squeeze_release df25 = true ∧
    vah_break df25 = true ∧ rsi_last df25 = some 70 ∧
    ttm_entry_signal df25 = false :=
  ⟨by decide, by with_unfolding_all rfl, by with_unfolding_all rfl,
    by with_unfolding_all rfl, by with_unfolding_all rfl⟩

/-- C5 amended: for a series of at least 100 bars (the length the
source's guard admits) with a squeeze release into the last bar, last
close above the computed VAH, and RSI at or above the threshold 65,
the entry predicate returns true. -/
theorem ttm_entry_amended (bars : List Bar) (hlen : 100 ≤ bars.length)
    (hsq : squeeze_release bars = true) (hvah : vah_break bars = true)
    (hrsi : ∃ r, rsi_last bars = some r ∧ 65 ≤ r) :
    ttm_entry_signal bars = true := by
  obtain ⟨r, hr, hr65⟩ := hrsi
  unfold ttm_entry_signal
  rw [if_neg (by omega), hsq, hvah, hr]
  simp [hr65]

set_option maxRecDepth 1000000 in
/-- Witness for `ttm_entry_amended`: the 100-bar padding of the
Scenario A series fires the entry predicate. -/
theorem ttm_entry_amended_witness :
    100 ≤ df100.length ∧ squeeze_release df100 = true ∧
    vah_break df100 = true ∧
    (∃ r, rsi_last df100 = some r ∧ (65:ℚ) ≤ r) ∧
    ttm_entry_signal df100 = true :=
  have h1 : 100 ≤ df100.length := by decide
  have h2 : squeeze_release df100 = true := by with_unfolding_all rfl
  have h3 : vah_break df100 = true := by with_unfolding_all rfl
  have h4 : rsi_last df100 = some 70 := by with_unfolding_all rfl
  ⟨h1, h2, h3, ⟨70, h4, by norm_num⟩,
    ttm_entry_amended df100 h1 h2 h3 ⟨70, h4, by norm_num⟩⟩

-- ──────────────────────────────────────────────────────────────
-- C7: the VAH bucket-order claim
-- ──────────────────────────────────────────────────────────────

/-- Total volume of the pairs (bucket index, volume) landing in
bucket `b` (generalisation of `binVol` over an explicit pair list). -/
def pairsVol (L : List (ℕ × ℚ)) (b : ℕ) : ℚ :=
  ((L.filter fun p => p.1 == b).map Prod.snd).sum

theorem binVol_eq_pairsVol (idxs : List ℕ) (vols : List ℚ) (b : ℕ) :
    binVol idxs vols b = pairsVol (idxs.zip vols) b := rfl

theorem sum_map_ite_single (x : ℕ) (c : ℚ) :
    ∀ ks : List ℕ, ks.Nodup → x ∈ ks →
      (ks.map fun b => if x = b then c else 0).sum = c := by
  intro ks
  induction ks with
  | nil => intro _ hx; cases hx
  | cons k ks ih =>
      intro hnd hx
      rcases List.nodup_cons.mp hnd with ⟨hk, hnd'⟩
      by_cases hxk : x = k
      · subst hxk
        have hz : ((ks.map fun b => if x = b then c else 0)).sum = 0 := by
          apply List.sum_eq_zero
          intro y hy
          rcases List.mem_map.mp hy with ⟨b, hb, hyb⟩
          have : x ≠ b := fun h => hk (h ▸ hb)
          simp [← hyb, this]
        simp [hz]
      · have hx' : x ∈ ks := by
          rcases List.mem_cons.mp hx with h | h
          · exact absurd h hxk
          · exact h
        simp [hxk, ih hnd' hx']

theorem sum_map_add_pointwise (f g : ℕ → ℚ) :
    ∀ ks : List ℕ,
      (ks.map fun b => f b + g b).sum = (ks.map f).sum + (ks.map g).sum := by
  intro ks
  induction ks with
  | nil => simp
  | cons k ks ih => simp [ih]; ring

theorem pairsVol_cons (p : ℕ × ℚ) (L : List (ℕ × ℚ)) (b : ℕ) :
    pairsVol (p :: L) b = (if p.1 = b then p.2 else 0) + pairsVol L b := by
  by_cases h : p.1 = b
  · simp [pairsVol, List.filter_cons, h]
  · simp [pairsVol, List.filter_cons, h]

theorem sum_pairsVol (ks : List ℕ) (hnd : ks.Nodup) :
    ∀ L : List (ℕ × ℚ), (∀ p ∈ L, p.1 ∈ ks) →
      (ks.map (pairsVol L)).sum = (L.map Prod.snd).sum := by
  intro L
  induction L with
  | nil =>
      intro _
      simp only [List.map_nil, List.sum_nil]
      apply List.sum_eq_zero
      intro y hy
      rcases List.mem_map.mp hy with ⟨b, _, hb⟩
      rw [← hb]
      rfl
  | cons p L ih =>
      intro hall
      have hmem : p.1 ∈ ks := hall p (List.mem_cons_self p L)
      have hrec := ih fun q hq => hall q (List.mem_cons_of_mem p hq)
      have hmap : (ks.map (pairsVol (p :: L))).sum
          = (ks.map fun b => (if p.1 = b then p.2 else 0) + pairsVol L b).sum := by
        congr 1
        apply List.map_congr_left
        intro b _
        exact pairsVol_cons p L b
      rw [hmap, sum_map_add_pointwise, sum_map_ite_single p.1 p.2 ks hnd hmem, hrec]
      simp

theorem vahLoop_total_zero (edges : List ℚ) (pmax : ℚ) (binv : ℕ → ℚ) :
    ∀ ks acc, vahLoop edges pmax 0 binv ks acc = pmax := by
  intro ks
  induction ks with
  | nil => intro acc; rfl
  | cons b ks ih =>
      intro acc
      have hno : ¬ ((7:ℚ)/10 ≤ (acc + binv b) / 0) := by
        rw [div_zero]; norm_num
      simp only [vahLoop, if_neg hno]
      exact ih _

theorem vahLoop_skip (edges : List ℚ) (pmax total : ℚ) (binv : ℕ → ℚ)
    (q : ℕ → Bool) (hz : ∀ b, q b = false → binv b = 0) :
    ∀ ks acc, ¬ ((7:ℚ)/10 ≤ acc / total) →
      vahLoop edges pmax total binv ks acc
        = vahLoop edges pmax total binv (ks.filter q) acc := by
  intro ks
  induction ks with
  | nil => intro acc _; rfl
  | cons b ks ih =>
      intro acc hacc
      by_cases hq : q b = true
      · rw [List.filter_cons_of_pos hq]
        by_cases hfire : (7:ℚ)/10 ≤ (acc + binv b) / total
        · simp only [vahLoop, if_pos hfire]
        · simp only [vahLoop, if_neg hfire]
          exact ih (acc + binv b) hfire
      · have hq' : q b = false := by
          revert hq; cases q b <;> simp
        rw [List.filter_cons_of_neg (by simp [hq'])]
        have h0 : binv b = 0 := hz b hq'
        simp only [vahLoop, h0, add_zero, if_neg hacc]
        exact ih acc hacc

theorem vahLoop_range (edges : List ℚ) (pmax total : ℚ) (binv : ℕ → ℚ)
    (cum : ℕ → ℚ) (hcum : ∀ m, cum (m + 1) = cum m + binv m) :
    ∀ len m,
      vahLoop edges pmax total binv (List.range' m len) (cum m)
        = match (List.range' m len).find?
            (fun b => decide ((7:ℚ)/10 ≤ cum (b + 1) / total)) with
          | some b => edges.getD (min b 49) 0
          | none => pmax := by
  intro len
  induction len with
  | zero => intro m; rfl
  | succ len ih =>
      intro m
      have hcons : List.range' m (len + 1) = m :: List.range' (m + 1) len := rfl
      rw [hcons]
      by_cases hfire : (7:ℚ)/10 ≤ cum (m + 1) / total
      · rw [List.find?_cons_of_pos _ (by simpa using hfire)]
        simp only [vahLoop, ← hcum m]
        rw [if_pos hfire]
      · rw [List.find?_cons_of_neg _ (by simpa using hfire)]
        have hstep : ¬ ((7:ℚ)/10 ≤ (cum m + binv m) / total) := by
          rw [← hcum m]; exact hfire
        simp only [vahLoop, if_neg hstep]
        rw [← hcum m]
        exact ih (m + 1)

/-- Cumulative volume of buckets with index strictly below `m` (helper
for walking the buckets in ascending index order). -/
def cumVolLt (idxs : List ℕ) (vols : List ℚ) (m : ℕ) : ℚ :=
  (((idxs.zip vols).filter fun p => decide (p.1 < m)).map Prod.snd).sum

/-- Cumulative volume of buckets with index at most `b` — the
ascending cumulative volume of the amended claim. -/
def cumVolLe (idxs : List ℕ) (vols : List ℚ) (b : ℕ) : ℚ :=
  (((idxs.zip vols).filter fun p => decide (p.1 ≤ b)).map Prod.snd).sum

theorem cumVolLt_zero (idxs : List ℕ) (vols : List ℚ) :
    cumVolLt idxs vols 0 = 0 := by
  unfold cumVolLt
  have h : ((idxs.zip vols).filter fun p => decide (p.1 < 0)) = [] := by
    apply List.filter_eq_nil.mpr
    intro p _
    simp
  rw [h]
  rfl

theorem sum_filter_split (P Q R : ℕ × ℚ → Bool)
    (hPQR : ∀ p, P p = true ↔ (Q p = true ∨ R p = true))
    (hQR : ∀ p, ¬ (Q p = true ∧ R p = true)) :
    ∀ L : List (ℕ × ℚ),
      ((L.filter P).map Prod.snd).sum
        = ((L.filter Q).map Prod.snd).sum + ((L.filter R).map Prod.snd).sum := by
  intro L
  induction L with
  | nil => simp
  | cons p L ih =>
      by_cases hq : Q p = true
      · have hp : P p = true := (hPQR p).mpr (Or.inl hq)
        have hr : ¬ R p = true := fun hr => hQR p ⟨hq, hr⟩
        rw [List.filter_cons_of_pos hp, List.filter_cons_of_pos hq,
          List.filter_cons_of_neg hr]
        simp only [List.map_cons, List.sum_cons, ih]
        ring
      · by_cases hr : R p = true
        · have hp : P p = true := (hPQR p).mpr (Or.inr hr)
          rw [List.filter_cons_of_pos hp, List.filter_cons_of_neg hq,
            List.filter_cons_of_pos hr]
          simp only [List.map_cons, List.sum_cons, ih]
          ring
        · have hp : ¬ P p = true := fun hp => by
            rcases (hPQR p).mp hp with h | h
            exacts [hq h, hr h]
          rw [List.filter_cons_of_neg hp, List.filter_cons_of_neg hq,
            List.filter_cons_of_neg hr]
          exact ih

theorem cumVolLt_succ (idxs : List ℕ) (vols : List ℚ) (m : ℕ) :
    cumVolLt idxs vols (m + 1) = cumVolLt idxs vols m + binVol idxs vols m := by
  unfold cumVolLt binVol
  apply sum_filter_split
  · intro p
    simp only [decide_eq_true_eq, beq_iff_eq]
    omega
  · intro p
    simp only [decide_eq_true_eq, beq_iff_eq]
    omega

theorem cumVolLe_eq_lt_succ (idxs : List ℕ) (vols : List ℚ) (b : ℕ) :
    cumVolLe idxs vols b = cumVolLt idxs vols (b + 1) := by
  unfold cumVolLe cumVolLt
  have hfe : (idxs.zip vols).filter (fun p => decide (p.1 ≤ b))
      = (idxs.zip vols).filter (fun p => decide (p.1 < b + 1)) := by
    apply List.filter_congr
    intro p _
    refine decide_eq_decide.mpr ?_
    omega
  rw [hfe]

theorem digitizeIdx_le (edges : List ℚ) (x : ℚ) :
    digitizeIdx edges x ≤ edges.length :=
  List.length_filter_le _ _

/-- C7 core: on any windowed segment with non-negative volumes, the
source VAH equals the ascending first-reach-70% description. -/
theorem vahCore_asc (segC segV : List ℚ) (hv : ∀ v ∈ segV, 0 ≤ v) :
    vahCore segC segV
      = (if (((vahIdxs segC).zip segV).map Prod.snd).sum = 0 then listMaxD segC
         else
           match (List.range 51).find? (fun b =>
               decide ((7:ℚ)/10 * (((vahIdxs segC).zip segV).map Prod.snd).sum
                 ≤ cumVolLe (vahIdxs segC) segV b)) with
           | some b => (vahEdges segC).getD (min b 49) 0
           | none => listMaxD segC) := by
  have hnd : (vahKeys (vahIdxs segC)).Nodup := (List.nodup_range 51).filter _
  have hlenE : (vahEdges segC).length = 50 := by
    unfold vahEdges linspace50
    rw [List.length_map, List.length_range]
  have hallmem : ∀ p ∈ (vahIdxs segC).zip segV, p.1 ∈ vahKeys (vahIdxs segC) := by
    intro p hp
    have hp1 : p.1 ∈ vahIdxs segC := (List.of_mem_zip hp).1
    have hlt : p.1 < 51 := by
      rcases List.mem_map.mp hp1 with ⟨x, _, hx⟩
      have hle := digitizeIdx_le (vahEdges segC) x
      omega
    unfold vahKeys
    refine List.mem_filter.mpr ⟨List.mem_range.mpr hlt, ?_⟩
    simpa [List.contains, List.elem_iff] using hp1
  have htot : vahTotal segC segV = (((vahIdxs segC).zip segV).map Prod.snd).sum := by
    unfold vahTotal
    rw [show binVol (vahIdxs segC) segV = pairsVol ((vahIdxs segC).zip segV) from rfl]
    exact sum_pairsVol _ hnd _ hallmem
  by_cases hT0 : (((vahIdxs segC).zip segV).map Prod.snd).sum = 0
  · rw [if_pos hT0]
    unfold vahCore
    rw [htot, hT0]
    exact vahLoop_total_zero _ _ _ _ _
  · have hTnn : 0 ≤ (((vahIdxs segC).zip segV).map Prod.snd).sum := by
      apply List.sum_nonneg
      intro y hy
      rcases List.mem_map.mp hy with ⟨p, hp, hyp⟩
      have hmem : p.2 ∈ segV := (List.of_mem_zip hp).2
      rw [← hyp]
      exact hv _ hmem
    have hTpos : 0 < (((vahIdxs segC).zip segV).map Prod.snd).sum :=
      lt_of_le_of_ne hTnn (Ne.symm hT0)
    rw [if_neg hT0]
    unfold vahCore
    rw [htot]
    have hz : ∀ b, (fun b => (vahIdxs segC).contains b) b = false →
        binVol (vahIdxs segC) segV b = 0 := by
      intro b hb
      unfold binVol
      have hnil : ((vahIdxs segC).zip segV).filter (fun p => p.1 == b) = [] := by
        apply List.filter_eq_nil.mpr
        intro p hp
        have hp1 : p.1 ∈ vahIdxs segC := (List.of_mem_zip hp).1
        simp only [beq_iff_eq]
        intro hpb
        subst hpb
        have hc : (vahIdxs segC).contains p.1 = true := by
          simpa [List.contains, List.elem_iff] using hp1
        simp [hc] at hb
        exact hb hp1
      rw [hnil]
      rfl
    have hstart : ¬ ((7:ℚ)/10 ≤ 0 / (((vahIdxs segC).zip segV).map Prod.snd).sum) := by
      rw [zero_div]
      norm_num
    rw [show vahKeys (vahIdxs segC)
        = (List.range 51).filter (fun b => (vahIdxs segC).contains b) from rfl]
    rw [← vahLoop_skip _ _ _ _ _ hz (List.range 51) 0 hstart]
    have h0 : cumVolLt (vahIdxs segC) segV 0 = 0 := cumVolLt_zero _ _
    rw [List.range_eq_range', ← h0]
    rw [vahLoop_range _ _ _ _ (cumVolLt (vahIdxs segC) segV)
      (cumVolLt_succ (vahIdxs segC) segV) 51 0]
    have hpred : (fun b => decide ((7:ℚ)/10
          ≤ cumVolLt (vahIdxs segC) segV (b + 1)
              / (((vahIdxs segC).zip segV).map Prod.snd).sum))
        = fun b => decide ((7:ℚ)/10 * (((vahIdxs segC).zip segV).map Prod.snd).sum
            ≤ cumVolLe (vahIdxs segC) segV b) := by
      funext b
      rw [decide_eq_decide, cumVolLe_eq_lt_succ]
      exact le_div_iff hTpos
    rw [← List.range_eq_range', hpred, h0]

/-- The amended claim's description of the VAH: the upper boundary of
the first bucket — in ascending bucket-index (price) order — at which
the cumulative volume reaches 70% of the window's total volume; the
maximum price of the window when the total volume is zero. -/
def vahAscSpec (closes vols : List ℚ) (lookback : ℕ) : ℚ :=
  let segC := tailN lookback closes
  let segV := tailN lookback vols
  if (((vahIdxs segC).zip segV).map Prod.snd).sum = 0 then listMaxD segC
  else
    match (List.range 51).find? (fun b =>
        decide ((7:ℚ)/10 * (((vahIdxs segC).zip segV).map Prod.snd).sum
          ≤ cumVolLe (vahIdxs segC) segV b)) with
    | some b => (vahEdges segC).getD (min b 49) 0
    | none => listMaxD segC

/-- C7 amended: with non-negative volumes, the source VAH equals the
ascending first-reach-70% description, including the zero-volume →
maximum-price edge case. -/
theorem volume_profile_vah_asc (closes vols : List ℚ) (lookback : ℕ)
    (hv : ∀ v ∈ vols, 0 ≤ v) :
    volume_profile_vah closes vols lookback
      = vahAscSpec closes vols lookback := by
  have hv2 : ∀ v ∈ tailN lookback vols, 0 ≤ v := by
    intro v hvm
    have hsub : tailN lookback vols ⊆ vols := List.drop_subset _ _
    exact hv v (hsub hvm)
  exact vahCore_asc (tailN lookback closes) (tailN lookback vols) hv2

/-- Witness for `volume_profile_vah_asc` at the concrete window
closes [0, 50, 100], volumes [5, 2, 3]. -/
theorem volume_profile_vah_asc_witness :
    (∀ v ∈ ([5, 2, 3] : List ℚ), 0 ≤ v) ∧
    volume_profile_vah [0, 50, 100] [5, 2, 3] 60
      = vahAscSpec [0, 50, 100] [5, 2, 3] 60 :=
  have hv : ∀ v ∈ ([5, 2, 3] : List ℚ), 0 ≤ v := by
    intro v hvm
    simp only [List.mem_cons, List.not_mem_nil, or_false] at hvm
    rcases hvm with rfl | rfl | rfl <;> norm_num
  ⟨hv, volume_profile_vah_asc [0, 50, 100] [5, 2, 3] 60 hv⟩

/-- Insert a bucket into a list ordered by descending volume (ties by
lower bucket index first); used only to formalise the claim's
"descending-volume order" wording — the source never sorts by
volume. -/
def insertDescVol (binv : ℕ → ℚ) (b : ℕ) : List ℕ → List ℕ
  | [] => [b]
  | x :: xs =>
      if binv x < binv b ∨ (binv x = binv b ∧ b < x) then b :: x :: xs
      else x :: insertDescVol binv b xs

/-- Order the appearing buckets by descending accumulated volume. -/
def sortDescVol (binv : ℕ → ℚ) : List ℕ → List ℕ
  | [] => []
  | b :: bs => insertDescVol binv b (sortDescVol binv bs)

/-- The claim's reading of the VAH computation: identical inputs and
accumulation loop, but with the buckets processed in DESCENDING order
of accumulated volume, returning the (clamped) upper boundary of the
bucket at which the cumulative volume first reaches 70% of total. -/
def vahClaimDesc (closes vols : List ℚ) (lookback : ℕ) : ℚ :=
  let segC := tailN lookback closes
  let segV := tailN lookback vols
  vahLoop (vahEdges segC) (listMaxD segC) (vahTotal segC segV)
    (binVol (vahIdxs segC) segV)
    (sortDescVol (binVol (vahIdxs segC) segV) (vahKeys (vahIdxs segC))) 0

set_option maxRecDepth 100000 in
/-- C7 counterexample: for the window closes [0, 50, 100] with
volumes [5, 2, 3] (total 10, threshold 7), ascending accumulation
first reaches 70% at the middle bucket (index 25, upper edge
2500/49 ≈ 51.02), while descending-volume accumulation first reaches
it at the top-price bucket (upper edge 100). The source returns
2500/49, not the descending-order boundary the claim describes. -/
theorem vah_desc_counterexample :
    volume_profile_vah [0, 50, 100] [5, 2, 3] 60 = 2500/49 ∧
    vahClaimDesc [0, 50, 100] [5, 2, 3] 60 = 100 ∧
    volume_profile_vah [0, 50, 100] [5, 2, 3] 60
      ≠ vahClaimDesc [0, 50, 100] [5, 2, 3] 60 := by
  have h1 : volume_profile_vah [0, 50, 100] [5, 2, 3] 60 = 2500/49 := by
    with_unfolding_all rfl
  have h2 : vahClaimDesc [0, 50, 100] [5, 2, 3] 60 = 100 := by
    with_unfolding_all rfl
  refine ⟨h1, h2, ?_⟩
  rw [h1, h2]
  norm_num

-- ──────────────────────────────────────────────────────────────
-- Enriched frames and the exit predicate (strategy.exit_signal)
-- ──────────────────────────────────────────────────────────────

/-- The indicator-enriched DataFrame handed to the strategy predicates
by the engine. The `add_indicators` enrichment imported by
trade_engine.py is absent from src/, so the extra columns are carried
as data: an optional `rsi` column (`exit_signal` checks
`"rsi" in df.columns`), the `atr` column read by the entry path for
the take-profit offsets, and the OBV / +DI trend columns the spec's
trend variant consults. -/
structure DF where
  bars : List Bar
  rsiCol : Option (List (Option ℚ))
  atrCol : List (Option ℚ)
  obvCol : List ℚ
  diPlusCol : List ℚ

/-- NaN-aware float comparison `a ≤ x` (pandas: False on NaN). -/
def optGe (x : Option ℚ) (a : ℚ) : Bool :=
  match x with
  | none => false
  | some v => decide (a ≤ v)

/-- NaN-aware float comparison `x < a` (pandas: False on NaN). -/
def optLtVal (x : Option ℚ) (a : ℚ) : Bool :=
  match x with
  | none => false
  | some v => decide (v < a)

/-- Source `strategy.exit_signal`: recompute the RSI column (via
`_add_indicators`, window 14) when the frame is shorter than 5 rows
or carries no `rsi` column; fire when RSI reached `rsi_hi` within the
last three bars and crossed below `rsi_fall` between the previous and
the current bar. The OBV and +DI columns are never consulted. -/
def exit_signal (df : DF) (rsi_hi rsi_fall : ℚ) : Bool :=
  let rsi :=
    match df.rsiCol with
    | some col =>
        if df.bars.length < 5 then rsiCol 14 (df.bars.map Bar.c) else col
    | none => rsiCol 14 (df.bars.map Bar.c)
  let wasHigh := (tailN 3 rsi).any fun x => optGe x rsi_hi
  let fell := optGe (rsi.getD (rsi.length - 2) none) rsi_fall &&
    optLtVal (rsi.getD (rsi.length - 1) none) rsi_fall
  wasHigh && fell

/-- Strictly falling over the last three entries of a column — the
claim's "monotonically falling OBV / +DI over the last three bars". -/
def fallingLast3 (xs : List ℚ) : Bool :=
  match tailN 3 xs with
  | [a, b, c] => decide (b < a) && decide (c < b)
  | _ => false

/-- A 5-bar enriched frame whose OBV and +DI fall strictly over the
last three bars while the RSI sits flat at 50. -/
def dfExit : DF :=
  { bars := List.replicate 5 baseBar
    rsiCol := some [some 50, some 50, some 50, some 50, some 50]
    atrCol := List.replicate 5 (some 1)
    obvCol := [10, 9, 8, 7, 6]
    diPlusCol := [30, 25, 20, 15, 10] }

/-- C6 counterexample: an enriched series whose last three bars show
strictly falling OBV and strictly falling +DI, on which the exit
predicate nevertheless returns false — the source's `exit_signal`
consults only the RSI column (here flat at 50). -/
theorem exit_signal_obv_di_counterexample :
    fallingLast3 dfExit.obvCol = true ∧
    fallingLast3 dfExit.diPlusCol = true ∧
    exit_signal dfExit 70 60 = false :=
  ⟨by with_unfolding_all rfl, by with_unfolding_all rfl,
    by with_unfolding_all rfl⟩

/-- C6 amended: the exit predicate never consults the OBV, +DI or ATR
columns — its value is invariant under arbitrary replacement of them
— and with an `rsi` column present on at least 5 rows it fires
exactly when RSI reached `rsi_hi` within the last three bars and
crossed from at least `rsi_fall` to below `rsi_fall` on the last
bar. -/
theorem exit_signal_rsi_only (bars : List Bar) (col : List (Option ℚ))
    (atr atr2 : List (Option ℚ)) (obv di obv2 di2 : List ℚ)
    (rsi_hi rsi_fall : ℚ) (hlen : 5 ≤ bars.length) :
    exit_signal ⟨bars, some col, atr, obv, di⟩ rsi_hi rsi_fall
      = exit_signal ⟨bars, some col, atr2, obv2, di2⟩ rsi_hi rsi_fall ∧
    exit_signal ⟨bars, some col, atr, obv, di⟩ rsi_hi rsi_fall
      = (((tailN 3 col).any fun x => optGe x rsi_hi) &&
         (optGe (col.getD (col.length - 2) none) rsi_fall &&
          optLtVal (col.getD (col.length - 1) none) rsi_fall)) := by
  constructor
  · rfl
  · unfold exit_signal
    simp only
    rw [if_neg (by omega)]

/-- Witness for `exit_signal_rsi_only` at the concrete frame
`dfExit` (with replaced trend columns on the right). -/
theorem exit_signal_rsi_only_witness :
    5 ≤ (List.replicate 5 baseBar).length ∧
    (exit_signal ⟨List.replicate 5 baseBar,
        some [some 50, some 50, some 50, some 50, some 50],
        List.replicate 5 (some 1), [10, 9, 8, 7, 6],
        [30, 25, 20, 15, 10]⟩ 70 60
      = exit_signal ⟨List.replicate 5 baseBar,
          some [some 50, some 50, some 50, some 50, some 50],
          [], [1, 2, 3], [4, 5, 6]⟩ 70 60 ∧
    exit_signal ⟨List.replicate 5 baseBar,
        some [some 50, some 50, some 50, some 50, some 50],
        List.replicate 5 (some 1), [10, 9, 8, 7, 6],
        [30, 25, 20, 15, 10]⟩ 70 60
      = (((tailN 3 [some 50, some 50, some 50, some 50, some (50:ℚ)]).any
            fun x => optGe x 70) &&
         (optGe ([some 50, some 50, some 50, some 50, some (50:ℚ)].getD
              ([some 50, some 50, some 50, some 50, some (50:ℚ)].length - 2) none) 60 &&
          optLtVal ([some 50, some 50, some 50, some 50, some (50:ℚ)].getD
              ([some 50, some 50, some 50, some 50, some (50:ℚ)].length - 1) none) 60))) :=
  ⟨by decide,
    exit_signal_rsi_only (List.replicate 5 baseBar)
      [some 50, some 50, some 50, some 50, some 50]
      (List.replicate 5 (some 1)) [] [10, 9, 8, 7, 6] [30, 25, 20, 15, 10]
      [1, 2, 3] [4, 5, 6] 70 60 (by decide)⟩

-- ──────────────────────────────────────────────────────────────
-- indicators.add_squeeze_ind (TTM squeeze pipeline)
-- ──────────────────────────────────────────────────────────────

/-- True range of one row as `indicators.add_squeeze_ind` computes it
(note the source uses the CURRENT row's close, not the previous
close): `max(h - l, |h - c|, |l - c|)`. -/
def trRow (b : Bar) : ℚ :=
  max (b.h - b.l) (max |b.h - b.c| |b.l - b.c|)

/-- pandas `rolling(w).std()` (ddof=1) composed with the machine
square-root routine `sqrtFn`, which is abstracted: every theorem
below holds for an arbitrary routine. -/
def rollingStd (sqrtFn : ℚ → ℚ) (w : ℕ) (xs : List ℚ) : List (Option ℚ) :=
  (rollingApply w sampleVar xs).map (Option.map sqrtFn)

/-- Elementwise combination of two aligned columns (NaN-strict). -/
def optZip (f : ℚ → ℚ → ℚ) : Option ℚ → Option ℚ → Option ℚ
  | some a, some b => some (f a b)
  | _, _ => none

/-- Source `df["bb_up"] = ma + 2 * std` of `indicators.add_squeeze_ind`
(rolling windows default to 20). -/
def bb_up (sqrtFn : ℚ → ℚ) (bars : List Bar) : List (Option ℚ) :=
  List.zipWith (optZip fun ma s => ma + 2 * s)
    (rollingApply 20 listMean (bars.map Bar.c))
    (rollingStd sqrtFn 20 (bars.map Bar.c))

/-- Source `df["bb_dn"] = ma - 2 * std`. -/
def bb_dn (sqrtFn : ℚ → ℚ) (bars : List Bar) : List (Option ℚ) :=
  List.zipWith (optZip fun ma s => ma - 2 * s)
    (rollingApply 20 listMean (bars.map Bar.c))
    (rollingStd sqrtFn 20 (bars.map Bar.c))

/-- Source `atr = tr.rolling(kc_window).mean()` of
`indicators.add_squeeze_ind` (kc_window default 20). -/
def sqAtrCol (bars : List Bar) : List (Option ℚ) :=
  rollingApply 20 listMean (bars.map trRow)

/-- Source `df["kc_up"] = ma + kc_mult * atr` (kc_mult default 1.5). -/
def kc_up (bars : List Bar) : List (Option ℚ) :=
  List.zipWith (optZip fun ma a => ma + (3/2) * a)
    (rollingApply 20 listMean (bars.map Bar.c)) (sqAtrCol bars)

/-- Source `df["kc_dn"] = ma - kc_mult * atr`. -/
def kc_dn (bars : List Bar) : List (Option ℚ) :=
  List.zipWith (optZip fun ma a => ma - (3/2) * a)
    (rollingApply 20 listMean (bars.map Bar.c)) (sqAtrCol bars)

/-- NaN-aware float comparison `b < a` on columns (False on NaN). -/
def optGtCol : Option ℚ → Option ℚ → Bool
  | some a, some b => decide (b < a)
  | _, _ => false

/-- NaN-aware float comparison `a < b` on columns (False on NaN). -/
def optLtCol : Option ℚ → Option ℚ → Bool
  | some a, some b => decide (a < b)
  | _, _ => false

/-- Source `df["squeeze_on"] = (df.bb_dn > df.kc_dn) & (df.bb_up < df.kc_up)`:
a plain boolean column — pandas comparisons on NaN inputs evaluate to
False, so the flag is False (a DEFINED value) wherever its numeric
inputs are still undefined. -/
def squeeze_on (sqrtFn : ℚ → ℚ) (bars : List Bar) : List Bool :=
  (List.range bars.length).map fun t =>
    optGtCol ((bb_dn sqrtFn bars).getD t none) ((kc_dn bars).getD t none) &&
      optLtCol ((bb_up sqrtFn bars).getD t none) ((kc_up bars).getD t none)

theorem rollingApply_getD_none (w : ℕ) (f : List ℚ → ℚ) (xs : List ℚ)
    (t : ℕ) (hw : t + 1 < w ∨ xs.length ≤ t) :
    (rollingApply w f xs).getD t none = none := by
  unfold rollingApply
  rcases lt_or_le t xs.length with ht | ht
  · have hw2 : t + 1 < w := by
      rcases hw with h | h
      · exact h
      · omega
    rw [List.getD_eq_getElem?_getD, List.getElem?_map, List.getElem?_range ht]
    simp [hw2]
  · rw [List.getD_eq_getElem?_getD, List.getElem?_eq_none]
    · rfl
    · simpa using ht

theorem zipWith_optZip_getD_none (f : ℚ → ℚ → ℚ)
    (xs ys : List (Option ℚ)) (t : ℕ) (hx : xs.getD t none = none) :
    (List.zipWith (optZip f) xs ys).getD t none = none := by
  rw [List.getD_eq_getElem?_getD, List.getElem?_zipWith]
  rcases hxs : xs[t]? with _ | x
  · rfl
  · rcases hys : ys[t]? with _ | y
    · rfl
    · rw [List.getD_eq_getElem?_getD, hxs] at hx
      simp only [Option.getD_some] at hx
      subst hx
      rfl

/-- C8 amended: on a series shorter than the 20-bar window, every
numeric column `indicators.add_squeeze_ind` adds is undefined at
every position (no exception, no fabricated zero); the derived
boolean squeeze flag evaluates to the DEFINED value false at every
position (pandas comparisons on NaN are False) rather than being
marked undefined; and the entry predicate returns false rather than
throwing. Holds for every float square-root routine `sqrtFn`. -/
theorem add_squeeze_ind_short (sqrtFn : ℚ → ℚ) (bars : List Bar)
    (hshort : bars.length < 20) :
    (∀ t, (bb_up sqrtFn bars).getD t none = none) ∧
    (∀ t, (bb_dn sqrtFn bars).getD t none = none) ∧
    (∀ t, (kc_up bars).getD t none = none) ∧
    (∀ t, (kc_dn bars).getD t none = none) ∧
    (∀ t, (sqAtrCol bars).getD t none = none) ∧
    squeeze_on sqrtFn bars = List.replicate bars.length false ∧
    ttm_entry_signal bars = false := by
  have hma : ∀ t, (rollingApply 20 listMean (bars.map Bar.c)).getD t none = none := by
    intro t
    apply rollingApply_getD_none
    rcases lt_or_le t bars.length with ht | ht
    · left; omega
    · right; simpa using ht
  have hbbup : ∀ t, (bb_up sqrtFn bars).getD t none = none := by
    intro t
    exact zipWith_optZip_getD_none _ _ _ t (hma t)
  have hbbdn : ∀ t, (bb_dn sqrtFn bars).getD t none = none := by
    intro t
    exact zipWith_optZip_getD_none _ _ _ t (hma t)
  have hkcup : ∀ t, (kc_up bars).getD t none = none := by
    intro t
    exact zipWith_optZip_getD_none _ _ _ t (hma t)
  have hkcdn : ∀ t, (kc_dn bars).getD t none = none := by
    intro t
    exact zipWith_optZip_getD_none _ _ _ t (hma t)
  have hatr : ∀ t, (sqAtrCol bars).getD t none = none := by
    intro t
    apply rollingApply_getD_none
    rcases lt_or_le t bars.length with ht | ht
    · left; omega
    · right; simpa using ht
  refine ⟨hbbup, hbbdn, hkcup, hkcdn, hatr, ?_, ?_⟩
  · unfold squeeze_on
    rw [List.eq_replicate_iff]
    constructor
    · simp
    · intro b hb
      rcases List.mem_map.mp hb with ⟨t, _, hbt⟩
      rw [← hbt, hbbdn t, hbbup t]
      rfl
  · unfold ttm_entry_signal
    rw [if_pos (by omega)]

/-- Witness for `add_squeeze_ind_short` on a 3-bar series with the
identity standing in for the square-root routine. -/
theorem add_squeeze_ind_short_witness :
    (List.replicate 3 baseBar).length < 20 ∧
    ((bb_up (fun q => q) (List.replicate 3 baseBar)).getD 0 none = none ∧
     squeeze_on (fun q => q) (List.replicate 3 baseBar)
        = List.replicate (List.replicate 3 baseBar).length false ∧
     ttm_entry_signal (List.replicate 3 baseBar) = false) :=
  have h := add_squeeze_ind_short (fun q => q) (List.replicate 3 baseBar)
    (by decide)
  ⟨by decide, h.1 0, h.2.2.2.2.2.1, h.2.2.2.2.2.2⟩

/-- C8 counterexample to the claim as stated: for a 3-bar series the
squeeze flag — a window-dependent column the pipeline adds — holds
the DEFINED boolean value false at all three positions instead of an
undefined mark (the numeric band columns are all undefined there). -/
theorem squeeze_on_short_defined :
    squeeze_on (fun q => q) (List.replicate 3 baseBar)
      = [false, false, false] ∧
    (bb_up (fun q => q) (List.replicate 3 baseBar)).all Option.isNone = true ∧
    ttm_entry_signal (List.replicate 3 baseBar) = false :=
  ⟨by with_unfolding_all rfl, by with_unfolding_all rfl,
    by with_unfolding_all rfl⟩

-- ──────────────────────────────────────────────────────────────
-- Trade engine (TradeEngine) and execution wrapper (BinanceFutures)
-- ──────────────────────────────────────────────────────────────

/-- Response of a successful `futures_create_order` call (only the
order id is read back by the engine). -/
structure OrderResp where
  orderId : ℤ
deriving DecidableEq, Repr

/-- Source `binance.exceptions.BinanceAPIException`. -/
structure ApiErr where
  code : ℤ
deriving DecidableEq, Repr

/-- Python exceptions that can escape an engine helper during a tick:
a Binance API error, or the ZeroDivisionError of the spread filter on
a zero best bid. `run_once` catches only the former. -/
inductive PyExc where
  | api (e : ApiErr)
  | zeroDiv
deriving DecidableEq, Repr

/-- Outcome of the underlying `futures_cancel_order` call. -/
inductive CancelOutcome where
  | ok
  | apiErr (e : ApiErr)
deriving DecidableEq, Repr

/-- Source `BinanceFutures.cancel_order`: forwards to
`futures_cancel_order`, catching and logging any
`BinanceAPIException`; the call returns normally on an exchange
rejection, which is what makes protective-order cancellation
best-effort. -/
def cancel_order (outcome : CancelOutcome) : Except ApiErr Unit :=
  match outcome with
  | CancelOutcome.ok => Except.ok ()
  | CancelOutcome.apiErr _ => Except.ok ()

/-- Order book snapshot: the price levels of `ob["bids"]` and
`ob["asks"]` (the source reads element [0][0]). -/
structure OrderBook where
  bids : List ℚ
  asks : List ℚ

/-- Exchange-side responses for one symbol during one tick. -/
structure SymData where
  orderBookRes : Except ApiErr OrderBook
  klinesRes : Except ApiErr (List Bar)
  openLongRes : Except ApiErr OrderResp
  stopRes : Except ApiErr OrderResp
  tp1Res : Except ApiErr OrderResp
  tp2Res : Except ApiErr OrderResp

/-- One tick's view of the exchange. -/
structure Market where
  moversRes : Except ApiErr (List String)
  data : String → SymData
  balanceRes : Except ApiErr ℚ
  positionAmt : String → ℚ
  closeOrderRes : String → Except ApiErr OrderResp
  posInfoRes : String → Except ApiErr (ℚ × ℚ)
  cancelOutcome : String → Option ℤ → CancelOutcome

/-- Engine constructor parameters and exchange metadata
(`TradeEngine.__init__`, tuning injected by main.py: the
`lookback_obv_atr` and `min_vol_ratio` lookups fall back to their
defaults 5 and 2.0 since main.py's PARAMS carries neither key). -/
structure EngineCfg where
  leverage : ℤ
  posPct : ℚ
  slPct : ℚ
  atrWindow : ℕ
  lookbackObvAtr : ℕ
  minVol : ℚ
  prec : String → ℕ
  lotStep : String → ℚ

/-- The mutable engine fields `open_symbol`, `stop_order_id`,
`tp_orders`. -/
structure EngineState where
  openSymbol : Option String
  stopOrderId : Option ℤ
  tpOrders : List (String × List ℤ)
deriving DecidableEq, Repr

/-- Exchange-mutating calls the engine issues during a tick, in
order. -/
inductive EngAct where
  | setLeverage (sym : String) (lev : ℤ)
  | openLong (sym : String) (qty : ℚ)
  | stopMarket (sym : String) (qty : ℚ) (stopPrice : ℚ)
  | tpLimit (sym : String) (qty : ℚ) (price : ℚ)
  | cancelOrder (sym : String) (oid : Option ℤ)
  | marketClose (sym : String) (side : String) (qty : ℚ)
deriving DecidableEq, Repr

/-- Python `round(x, p)`: round half to even at `p` decimal digits
(idealised over exact rationals). -/
def roundTo (x : ℚ) (p : ℕ) : ℚ :=
  let y := x * ((10 : ℚ) ^ p)
  let fl := ⌊y⌋
  let r :=
    if y - fl < 1/2 then fl
    else if 1/2 < y - fl then fl + 1
    else if fl % 2 = 0 then fl else fl + 1
  (r : ℚ) / ((10 : ℚ) ^ p)

/-- Source `TradeEngine._spread_ok`: false on an empty book side; a zero
best bid raises ZeroDivisionError (Python float division); otherwise
compare the relative spread to the ceiling. -/
def spread_ok (ob : OrderBook) (maxSpread : ℚ) : Except PyExc Bool :=
  match ob.bids.head?, ob.asks.head? with
  | some bid, some ask =>
      if bid = 0 then Except.error PyExc.zeroDiv
      else Except.ok (decide ((ask - bid) / bid < maxSpread))
  | _, _ => Except.ok false

/-- pandas `close.pct_change()` without the leading NaN: element `i`
is `(close[i+1] - close[i]) / close[i]` (rational division by zero
stands in for the float `inf` pandas produces on a zero close). -/
def pctChanges (closes : List ℚ) : List ℚ :=
  (closes.zip closes.tail).map fun p => (p.2 - p.1) / p.1

/-- Source `TradeEngine._vol_ok`: ratio of std (ddof=1) to mean of the last
30 absolute percentage returns compared against `min_vol_ratio`; the
float comparison `sigma / mu_or < min_vol` (σ the square root of the
sample variance, `mu_or = mu or 1e-8`) is embedded exactly through
`sqrtLt`. -/
def vol_ok (cfg : EngineCfg) (closes : List ℚ) : Bool :=
  let pct := tailN 30 ((pctChanges closes).map fun x => |x|)
  let mu := listMean pct
  let muOr := if mu = 0 then 1 / 100000000 else mu
  ! sqrtLt (sampleVar pct) (cfg.minVol * muOr)

/-- Source `TradeEngine._load_klines`: klines errors and empty responses
yield an empty frame; otherwise the raw rows are enriched by the
`add_indicators` column function — imported from bot.indicators by
trade_engine.py but absent from src/, hence supplied as the
parameter `addInd`. -/
def load_klines (addInd : List Bar → DF) (res : Except ApiErr (List Bar)) : DF :=
  match res with
  | Except.error _ => ⟨[], none, [], [], []⟩
  | Except.ok [] => ⟨[], none, [], [], []⟩
  | Except.ok raw => addInd raw

/-- Result of processing one scan candidate: skip to the next
candidate, enter (with the updated engine state — the loop then
breaks), or an exception aborting the scan. -/
inductive CandRes where
  | skip
  | enter (st : EngineState)
  | raise (e : PyExc)
deriving Repr

/-- The strategy functions `add_indicators`, `ema_vwap_di_signal` and
`obv_atr_rising` imported by trade_engine.py but absent from src/;
every engine theorem below holds for an arbitrary choice. -/
structure Sigs where
  addInd : List Bar → DF
  entrySig : DF → Bool
  obvAtrRising : DF → ℕ → Bool

/-- Step 5 of the `TradeEngine._scan_and_enter` loop body: leverage
set, market entry, stop-loss, two take-profit limit legs (each 30% of
the quantity at +0.6/+1.2 ATR). Every order is recorded as an action
when submitted; an API error on any order raises and the engine state
fields are NOT assigned (they are only assigned after the last order
succeeds, as in the source). -/
def try_enter (cfg : EngineCfg) (m : Market) (st : EngineState)
    (sym : String) (df : DF) (price qty : ℚ) : List EngAct × CandRes :=
  let acts0 := [EngAct.setLeverage sym cfg.leverage]
  match (m.data sym).openLongRes with
  | Except.error e => (acts0 ++ [EngAct.openLong sym qty], CandRes.raise (PyExc.api e))
  | Except.ok _ =>
    let slPrice := roundTo (price * (1 - cfg.slPct)) (cfg.prec sym)
    let acts1 := acts0 ++ [EngAct.openLong sym qty, EngAct.stopMarket sym qty slPrice]
    match (m.data sym).stopRes with
    | Except.error e => (acts1, CandRes.raise (PyExc.api e))
    | Except.ok slOrd =>
      let atrV := (df.atrCol.getD (df.atrCol.length - 1) none).getD 0
      let tp1P := roundTo (price + (6/10) * atrV) (cfg.prec sym)
      let tp2P := roundTo (price + (12/10) * atrV) (cfg.prec sym)
      let acts2 := acts1 ++ [EngAct.tpLimit sym (qty * (3/10)) tp1P]
      match (m.data sym).tp1Res with
      | Except.error e => (acts2, CandRes.raise (PyExc.api e))
      | Except.ok tp1 =>
        let acts3 := acts2 ++ [EngAct.tpLimit sym (qty * (3/10)) tp2P]
        match (m.data sym).tp2Res with
        | Except.error e => (acts3, CandRes.raise (PyExc.api e))
        | Except.ok tp2 =>
          (acts3,
           CandRes.enter
             { openSymbol := some sym
               stopOrderId := some slOrd.orderId
               tpOrders := (sym, [tp1.orderId, tp2.orderId])
                 :: st.tpOrders.filter fun p => !(p.1 == sym) })

/-- One candidate of the `TradeEngine._scan_and_enter` loop: spread
filter, klines length filter, volatility filter, strategy signals,
position sizing, then the entry orders. -/
def process_cand (cfg : EngineCfg) (sg : Sigs) (m : Market)
    (st : EngineState) (sym : String) : List EngAct × CandRes :=
  match (m.data sym).orderBookRes with
  | Except.error e => ([], CandRes.raise (PyExc.api e))
  | Except.ok ob =>
    match spread_ok ob (2/10000) with
    | Except.error e => ([], CandRes.raise e)
    | Except.ok false => ([], CandRes.skip)
    | Except.ok true =>
      let df := load_klines sg.addInd (m.data sym).klinesRes
      if df.bars.length < 60 then ([], CandRes.skip)
      else if !(sg.entrySig df && sg.obvAtrRising df cfg.lookbackObvAtr) then
        ([], CandRes.skip)
      else if !(vol_ok cfg (df.bars.map Bar.c)) then ([], CandRes.skip)
      else
        match m.balanceRes with
        | Except.error e => ([], CandRes.raise (PyExc.api e))
        | Except.ok bal =>
          let price := (df.bars.map Bar.c).getLastD 0
          let qty := position_size bal cfg.posPct (cfg.leverage : ℚ) price
            (cfg.lotStep sym)
          if qty ≤ 0 then ([], CandRes.skip)
          else try_enter cfg m st sym df price qty

/-- The candidate loop of `TradeEngine._scan_and_enter`: `break`
after the first entry (the single-position rule), abort on a raised
exception, otherwise continue with the next candidate. -/
def scan_cands (cfg : EngineCfg) (sg : Sigs) (m : Market) (st : EngineState) :
    List String → List EngAct × EngineState × Option PyExc
  | [] => ([], st, none)
  | sym :: rest =>
      match process_cand cfg sg m st sym with
      | (acts, CandRes.skip) =>
          let r := scan_cands cfg sg m st rest
          (acts ++ r.1, r.2)
      | (acts, CandRes.enter st2) => (acts, st2, none)
      | (acts, CandRes.raise e) => (acts, st, some e)

/-- Source `TradeEngine._scan_and_enter`: fetch the movers list (an API
error propagates to the tick boundary) and walk the candidates. -/
def scan_and_enter (cfg : EngineCfg) (sg : Sigs) (m : Market)
    (st : EngineState) : List EngAct × EngineState × Option PyExc :=
  match m.moversRes with
  | Except.error e => ([], st, some (PyExc.api e))
  | Except.ok movers => scan_cands cfg sg m st movers

/-- Source `dict.get(sym, default)` over the tp_orders association list. -/
def lookupTp : List (String × List ℤ) → String → Option (List ℤ)
  | [], _ => none
  | p :: rest, s => if p.1 == s then some p.2 else lookupTp rest s

/-- Source `BinanceFutures.close_position`: re-query the live position
amount (`futures_position_information`); flat → no order; otherwise
submit a market order for the exact live amount on the opposite side
(SELL for a long, BUY for a short), re-raising an API rejection. -/
def bf_close_position (m : Market) (sym : String) :
    List EngAct × Option ApiErr :=
  let amt := m.positionAmt sym
  if 0 < amt then
    ([EngAct.marketClose sym "SELL" |amt|],
     match m.closeOrderRes sym with
     | Except.error e => some e
     | Except.ok _ => none)
  else if amt < 0 then
    ([EngAct.marketClose sym "BUY" |amt|],
     match m.closeOrderRes sym with
     | Except.error e => some e
     | Except.ok _ => none)
  else ([], none)

/-- One `try: self.c.cancel_order(...) except Exception: pass` of
`TradeEngine._close_position`: the wrapper's result (itself already
swallowing API rejections, `cancel_order`) is computed and discarded;
no outcome alters the action or the control flow. -/
def try_cancel (outcome : CancelOutcome) (act : EngAct) : EngAct :=
  match cancel_order outcome with
  | Except.ok _ => act
  | Except.error _ => act

/-- Source `TradeEngine._close_position`: best-effort cancellation of the
recorded take-profit legs and of the stop order (even when the stop
id is absent), market flatten sized by the freshly queried live
amount, PNL-logging query, then clear `open_symbol`,
`stop_order_id` and pop the tp_orders entry. On an exception after
the cancels the mutation lines are not reached and the state is
returned unchanged, as in the source. -/
def te_close_position (m : Market) (st : EngineState) (sym : String) :
    List EngAct × EngineState × Option PyExc :=
  let tpIds := (lookupTp st.tpOrders sym).getD []
  let cancelActs :=
    tpIds.map (fun oid =>
      try_cancel (m.cancelOutcome sym (some oid)) (EngAct.cancelOrder sym (some oid)))
    ++ [try_cancel (m.cancelOutcome sym st.stopOrderId)
          (EngAct.cancelOrder sym st.stopOrderId)]
  match bf_close_position m sym with
  | (closeActs, some e) => (cancelActs ++ closeActs, st, some (PyExc.api e))
  | (closeActs, none) =>
      match m.posInfoRes sym with
      | Except.error e => (cancelActs ++ closeActs, st, some (PyExc.api e))
      | Except.ok _ =>
          (cancelActs ++ closeActs,
           { openSymbol := none, stopOrderId := none,
             tpOrders := st.tpOrders.filter fun p => !(p.1 == sym) },
           none)

/-- Source `TradeEngine._monitor_position`: reload the klines for the open
symbol and close the position when the frame is non-empty and the
exit predicate fires (RSI thresholds 70/60). -/
def monitor_position (sg : Sigs) (m : Market) (st : EngineState)
    (sym : String) : List EngAct × EngineState × Option PyExc :=
  if (load_klines sg.addInd (m.data sym).klinesRes).bars.length ≠ 0 ∧
      exit_signal (load_klines sg.addInd (m.data sym).klinesRes) 70 60 = true
  then te_close_position m st sym
  else ([], st, none)

/-- The `except BinanceAPIException` boundary of `TradeEngine.run_once`:
an API error raised inside the tick is caught (and logged); any other
exception escapes to the main loop. -/
def catch_api (r : List EngAct × EngineState × Option PyExc) :
    List EngAct × EngineState × Option PyExc :=
  match r.2.2 with
  | some (PyExc.api _) => (r.1, r.2.1, none)
  | _ => r

/-- Source `TradeEngine.run_once`: monitor when a position is open, scan
otherwise; `BinanceAPIException` is caught at the tick boundary. -/
def run_once (cfg : EngineCfg) (sg : Sigs) (m : Market) (st : EngineState) :
    List EngAct × EngineState × Option PyExc :=
  match st.openSymbol with
  | some sym => catch_api (monitor_position sg m st sym)
  | none => catch_api (scan_and_enter cfg sg m st)

/-- C10: the execution wrapper's `cancel_order` catches an exchange
rejection (`BinanceAPIException`) from `futures_cancel_order`, logs
it, and returns normally — no exchange error ever propagates to the
caller (here applied also at a concrete rejection code −2011,
"unknown order sent"). -/
theorem cancel_order_never_raises :
    (∀ e : ApiErr, cancel_order (CancelOutcome.apiErr e) = Except.ok ()) ∧
    cancel_order CancelOutcome.ok = Except.ok () ∧
    cancel_order (CancelOutcome.apiErr ⟨-2011⟩) = Except.ok () :=
  ⟨fun _ => rfl, rfl, rfl⟩

/-- Source `try_cancel` never changes the action: every cancellation outcome
is swallowed. -/
theorem try_cancel_eq (outcome : CancelOutcome) (act : EngAct) :
    try_cancel outcome act = act := by
  cases outcome <;> rfl

/-- Number of market entry (open long) orders in an action trace. -/
def countOpenLong (acts : List EngAct) : ℕ :=
  (acts.filter fun a =>
    match a with
    | EngAct.openLong _ _ => true
    | _ => false).length

theorem try_enter_openLong (cfg : EngineCfg) (m : Market) (st : EngineState)
    (sym : String) (df : DF) (price qty : ℚ) :
    countOpenLong (try_enter cfg m st sym df price qty).1 ≤ 1 := by
  unfold try_enter
  cases (m.data sym).openLongRes with
  | error e => simp [countOpenLong, List.filter]
  | ok r0 =>
    cases (m.data sym).stopRes with
    | error e => simp [countOpenLong, List.filter]
    | ok r1 =>
      cases (m.data sym).tp1Res with
      | error e => simp [countOpenLong, List.filter]
      | ok r2 =>
        cases (m.data sym).tp2Res with
        | error e => simp [countOpenLong, List.filter]
        | ok r3 => simp [countOpenLong, List.filter]

theorem try_enter_not_skip (cfg : EngineCfg) (m : Market) (st : EngineState)
    (sym : String) (df : DF) (price qty : ℚ) :
    (try_enter cfg m st sym df price qty).2 ≠ CandRes.skip := by
  unfold try_enter
  cases (m.data sym).openLongRes with
  | error e => simp
  | ok r0 =>
    cases (m.data sym).stopRes with
    | error e => simp
    | ok r1 =>
      cases (m.data sym).tp1Res with
      | error e => simp
      | ok r2 =>
        cases (m.data sym).tp2Res with
        | error e => simp
        | ok r3 => simp

theorem process_cand_openLong (cfg : EngineCfg) (sg : Sigs) (m : Market)
    (st : EngineState) (sym : String) :
    countOpenLong (process_cand cfg sg m st sym).1 ≤ 1 := by
  unfold process_cand
  cases hob : (m.data sym).orderBookRes with
  | error e => simp [hob, countOpenLong]
  | ok ob =>
    try simp only [hob]
    cases hsp : spread_ok ob (2/10000) with
    | error e => simp [hsp, countOpenLong]
    | ok b =>
      try simp only [hsp]
      cases b with
      | false => simp [countOpenLong]
      | true =>
        simp only
        split
        · simp [countOpenLong]
        · split
          · simp [countOpenLong]
          · split
            · simp [countOpenLong]
            · cases hbal : m.balanceRes with
              | error e => simp [hbal, countOpenLong]
              | ok bal =>
                try simp only [hbal]
                split
                · simp [countOpenLong]
                · exact try_enter_openLong cfg m st sym _ _ _

theorem process_cand_skip_nil (cfg : EngineCfg) (sg : Sigs) (m : Market)
    (st : EngineState) (sym : String)
    (h : (process_cand cfg sg m st sym).2 = CandRes.skip) :
    (process_cand cfg sg m st sym).1 = [] := by
  unfold process_cand at h ⊢
  cases hob : (m.data sym).orderBookRes with
  | error e => simp [hob] at h
  | ok ob =>
    try simp only [hob] at h ⊢
    cases hsp : spread_ok ob (2/10000) with
    | error e => simp [hsp] at h
    | ok b =>
      try simp only [hsp] at h ⊢
      cases b with
      | false => rfl
      | true =>
        simp only at h ⊢
        split at h
        · rename_i hc
          rw [if_pos hc]
        · rename_i hc
          rw [if_neg hc]
          split at h
          · rename_i hc2
            rw [if_pos hc2]
          · rename_i hc2
            rw [if_neg hc2]
            split at h
            · rename_i hc3
              rw [if_pos hc3]
            · rename_i hc3
              rw [if_neg hc3]
              cases hbal : m.balanceRes with
              | error e => simp [hbal] at h
              | ok bal =>
                try simp only [hbal] at h ⊢
                split at h
                · rename_i hc4
                  rw [if_pos hc4]
                · rename_i hc4
                  rw [if_neg hc4]
                  exact absurd h (try_enter_not_skip cfg m st sym _ _ _)

theorem countOpenLong_append (xs ys : List EngAct) :
    countOpenLong (xs ++ ys) = countOpenLong xs + countOpenLong ys := by
  unfold countOpenLong
  rw [List.filter_append, List.length_append]

theorem scan_cands_openLong (cfg : EngineCfg) (sg : Sigs) (m : Market) :
    ∀ movers st, countOpenLong (scan_cands cfg sg m st movers).1 ≤ 1 := by
  intro movers
  induction movers with
  | nil => intro st; simp [scan_cands, countOpenLong]
  | cons sym rest ih =>
      intro st
      unfold scan_cands
      rcases hpc : process_cand cfg sg m st sym with ⟨acts, res⟩
      cases res with
      | skip =>
          have hnil : acts = [] := by
            have := process_cand_skip_nil cfg sg m st sym (by rw [hpc])
            rw [hpc] at this
            exact this
          simp only [hnil, List.nil_append]
          exact ih st
      | enter st2 =>
          have h := process_cand_openLong cfg sg m st sym
          rw [hpc] at h
          exact h
      | raise e =>
          have h := process_cand_openLong cfg sg m st sym
          rw [hpc] at h
          exact h

theorem bf_close_no_openLong (m : Market) (sym : String) :
    countOpenLong (bf_close_position m sym).1 = 0 := by
  unfold bf_close_position
  by_cases h1 : 0 < m.positionAmt sym
  · rw [if_pos h1]
    simp [countOpenLong, List.filter]
  · rw [if_neg h1]
    by_cases h2 : m.positionAmt sym < 0
    · rw [if_pos h2]
      simp [countOpenLong, List.filter]
    · rw [if_neg h2]
      simp [countOpenLong]

theorem te_close_no_openLong (m : Market) (st : EngineState) (sym : String) :
    countOpenLong (te_close_position m st sym).1 = 0 := by
  unfold te_close_position
  have hcancels : countOpenLong
      (((lookupTp st.tpOrders sym).getD []).map (fun oid =>
          try_cancel (m.cancelOutcome sym (some oid))
            (EngAct.cancelOrder sym (some oid)))
        ++ [try_cancel (m.cancelOutcome sym st.stopOrderId)
              (EngAct.cancelOrder sym st.stopOrderId)]) = 0 := by
    unfold countOpenLong
    rw [List.length_eq_zero]
    apply List.filter_eq_nil.mpr
    intro a ha
    rcases List.mem_append.mp ha with hmem | hmem
    · rcases List.mem_map.mp hmem with ⟨oid, _, hao⟩
      rw [← hao, try_cancel_eq]
      simp
    · rcases List.mem_singleton.mp hmem with rfl
      rw [try_cancel_eq]
      simp
  rcases hbf : bf_close_position m sym with ⟨closeActs, err⟩
  have hclose : countOpenLong closeActs = 0 := by
    have := bf_close_no_openLong m sym
    rw [hbf] at this
    exact this
  cases err with
  | some e =>
      simp only [hbf]
      rw [countOpenLong_append, hcancels, hclose]
  | none =>
      simp only [hbf]
      cases hinfo : m.posInfoRes sym with
      | error e =>
          try simp only [hinfo]
          rw [countOpenLong_append, hcancels, hclose]
      | ok info =>
          try simp only [hinfo]
          rw [countOpenLong_append, hcancels, hclose]

theorem catch_api_fst (r : List EngAct × EngineState × Option PyExc) :
    (catch_api r).1 = r.1 := by
  unfold catch_api
  rcases r with ⟨a, s, e⟩
  cases e with
  | none => rfl
  | some p => cases p <;> rfl

theorem catch_api_state (r : List EngAct × EngineState × Option PyExc) :
    (catch_api r).2.1 = r.2.1 := by
  unfold catch_api
  rcases r with ⟨a, s, e⟩
  cases e with
  | none => rfl
  | some p => cases p <;> rfl

theorem catch_api_no_api (r : List EngAct × EngineState × Option PyExc)
    (e : ApiErr) : (catch_api r).2.2 ≠ some (PyExc.api e) := by
  unfold catch_api
  rcases r with ⟨a, s, exc⟩
  cases exc with
  | none => simp
  | some p => cases p <;> simp

/-- C1: one tick of the engine issues at most one market entry order,
whatever the market data, the (missing-from-src) signal functions and
the prior state — the scan breaks at the first entered candidate —
and after an entry for candidate `sym` the remaining candidates are
not evaluated: the scan of `sym :: rest` equals the scan of `[sym]`
alone (same actions, same final state). The engine state can
reference at most one open symbol by construction
(`openSymbol : Option String`). -/
theorem run_once_single_position (cfg : EngineCfg) (sg : Sigs) (m : Market)
    (st : EngineState) :
    countOpenLong (run_once cfg sg m st).1 ≤ 1 ∧
    (∀ sym rest st2,
      (process_cand cfg sg m st sym).2 = CandRes.enter st2 →
      scan_cands cfg sg m st (sym :: rest) = scan_cands cfg sg m st [sym]) := by
  constructor
  · unfold run_once
    cases hos : st.openSymbol with
    | some sym =>
        try simp only [hos]
        rw [catch_api_fst]
        unfold monitor_position
        split
        · rw [te_close_no_openLong]
          omega
        · simp [countOpenLong]
    | none =>
        try simp only [hos]
        rw [catch_api_fst]
        unfold scan_and_enter
        cases hmv : m.moversRes with
        | error e => simp [countOpenLong]
        | ok movers =>
            try simp only [hmv]
            exact scan_cands_openLong cfg sg m movers st
  · intro sym rest st2 hent
    unfold scan_cands
    rcases hpc : process_cand cfg sg m st sym with ⟨acts, res⟩
    rw [hpc] at hent
    simp only at hent
    subst hent
    rfl

theorem try_enter_enter_stop_ok (cfg : EngineCfg) (m : Market)
    (st : EngineState) (sym : String) (df : DF) (price qty : ℚ)
    (st2 : EngineState)
    (h : (try_enter cfg m st sym df price qty).2 = CandRes.enter st2) :
    ∃ r, (m.data sym).stopRes = Except.ok r := by
  unfold try_enter at h
  cases ho : (m.data sym).openLongRes with
  | error e => simp [ho] at h
  | ok r0 =>
    simp only [ho] at h
    cases hs : (m.data sym).stopRes with
    | error e => simp [hs] at h
    | ok r1 => exact ⟨r1, rfl⟩

theorem process_cand_enter_stop_ok (cfg : EngineCfg) (sg : Sigs)
    (m : Market) (st : EngineState) (sym : String) (st2 : EngineState)
    (h : (process_cand cfg sg m st sym).2 = CandRes.enter st2) :
    ∃ r, (m.data sym).stopRes = Except.ok r := by
  unfold process_cand at h
  cases hob : (m.data sym).orderBookRes with
  | error e => simp [hob] at h
  | ok ob =>
    simp only [hob] at h
    cases hsp : spread_ok ob (2/10000) with
    | error e => simp [hsp] at h
    | ok b =>
      simp only [hsp] at h
      cases b with
      | false => simp at h
      | true =>
        simp only at h
        split at h
        · simp at h
        · split at h
          · simp at h
          · split at h
            · simp at h
            · cases hbal : m.balanceRes with
              | error e => simp [hbal] at h
              | ok bal =>
                simp only [hbal] at h
                split at h
                · simp at h
                · exact try_enter_enter_stop_ok cfg m st sym _ _ _ st2 h

/-- C3 amended: when the market entry order succeeds but the
protective stop placement raises an exchange error, the scan aborts,
the API exception is caught at the tick boundary, and the engine
state is returned UNCHANGED — no open position and no stop id are
recorded (so the next tick rescans while the exchange-side position
is untracked, the correctness gap the spec flags in §9). -/
theorem entry_stop_failure_amended (cfg : EngineCfg) (sg : Sigs)
    (m : Market) (st : EngineState) (sym : String) (r : OrderResp)
    (e : ApiErr)
    (hmov : m.moversRes = Except.ok [sym])
    (hopen : st.openSymbol = none)
    (hok : (m.data sym).openLongRes = Except.ok r)
    (herr : (m.data sym).stopRes = Except.error e) :
    (run_once cfg sg m st).2.1 = st ∧
    (∀ e2, (run_once cfg sg m st).2.2 ≠ some (PyExc.api e2)) := by
  have hscan : (scan_cands cfg sg m st [sym]).2.1 = st := by
    unfold scan_cands
    rcases hpc : process_cand cfg sg m st sym with ⟨acts, res⟩
    cases res with
    | skip => simp [scan_cands]
    | enter st2 =>
        exfalso
        obtain ⟨r2, hr2⟩ :=
          process_cand_enter_stop_ok cfg sg m st sym st2 (by rw [hpc])
        rw [herr] at hr2
        cases hr2
    | raise e2 => rfl
  constructor
  · unfold run_once
    try simp only [hopen]
    rw [catch_api_state]
    unfold scan_and_enter
    try simp only [hmov]
    exact hscan
  · intro e2
    unfold run_once
    try simp only [hopen]
    exact catch_api_no_api _ e2

-- Concrete fixtures for the engine witnesses and counterexamples.

/-- A 60-bar window: 59 quiet bars at close 100 then a close at 200 —
it passes the volatility filter (sample σ/μ of the absolute returns
is √30 ≈ 5.48 ≥ 2). -/
def klines60 : List Bar := List.replicate 59 baseBar ++ [⟨100, 210, 190, 200, 1⟩]

/-- Enrichment stand-in used by the concrete scan witnesses: no rsi
column, a constant defined ATR column, empty trend columns. -/
def addIndW : List Bar → DF := fun bars =>
  ⟨bars, none, List.replicate bars.length (some 1), [], []⟩

/-- Always-firing stand-ins for the missing signal functions. -/
def sigsW : Sigs := ⟨addIndW, fun _ => true, fun _ _ => true⟩

/-- Engine configuration of the witnesses: leverage 10, 30%
allocation, 2% stop, price precision 2, lot step 0.01. -/
def cfgW : EngineCfg :=
  { leverage := 10, posPct := 3/10, slPct := 1/50, atrWindow := 14,
    lookbackObvAtr := 5, minVol := 2,
    prec := fun _ => 2, lotStep := fun _ => 1/100 }

/-- Happy-path exchange responses: tight spread, the 60-bar window,
all orders acknowledged with ids 1..4. -/
def symDataW : SymData :=
  { orderBookRes := Except.ok ⟨[10000], [10001]⟩
    klinesRes := Except.ok klines60
    openLongRes := Except.ok ⟨1⟩
    stopRes := Except.ok ⟨2⟩
    tp1Res := Except.ok ⟨3⟩
    tp2Res := Except.ok ⟨4⟩ }

/-- Happy-path market: one candidate, balance 1000 USDT. -/
def marketW : Market :=
  { moversRes := Except.ok ["AAAUSDT"]
    data := fun _ => symDataW
    balanceRes := Except.ok 1000
    positionAmt := fun _ => 0
    closeOrderRes := fun _ => Except.ok ⟨5⟩
    posInfoRes := fun _ => Except.ok (0, 100)
    cancelOutcome := fun _ _ => CancelOutcome.ok }

/-- Fresh engine state: no position, no stop, no tp orders. -/
def st0 : EngineState := ⟨none, none, []⟩

set_option maxRecDepth 600000 in
/-- Witness for `run_once_single_position`: on the happy-path market
the single candidate enters (state records the symbol, stop id 2, tp
ids 3 and 4), the tick issues at most one entry order, and the scan
of a two-candidate list equals the scan of the first candidate
alone. -/
theorem run_once_single_position_witness :
    (process_cand cfgW sigsW marketW st0 "AAAUSDT").2
        = CandRes.enter ⟨some "AAAUSDT", some 2, [("AAAUSDT", [3, 4])]⟩ ∧
    countOpenLong (run_once cfgW sigsW marketW st0).1 ≤ 1 ∧
    scan_cands cfgW sigsW marketW st0 ["AAAUSDT", "BBBUSDT"]
      = scan_cands cfgW sigsW marketW st0 ["AAAUSDT"] :=
  have hent : (process_cand cfgW sigsW marketW st0 "AAAUSDT").2
      = CandRes.enter ⟨some "AAAUSDT", some 2, [("AAAUSDT", [3, 4])]⟩ := by
    with_unfolding_all rfl
  ⟨hent, (run_once_single_position cfgW sigsW marketW st0).1,
    (run_once_single_position cfgW sigsW marketW st0).2
      "AAAUSDT" ["BBBUSDT"] _ hent⟩

/-- Same exchange as `symDataW` except the stop-loss placement is
rejected. -/
def symDataC3 : SymData := { symDataW with stopRes := Except.error ⟨9⟩ }

/-- Market for the C3 counterexample. -/
def marketC3 : Market := { marketW with data := fun _ => symDataC3 }

set_option maxRecDepth 600000 in
/-- C3 counterexample: the market entry order succeeds (and is
submitted to the exchange, visible in the action trace) while the
protective stop placement fails — yet the tick ends with the engine
state UNCHANGED: `open_symbol` remains `none`, so the engine does NOT
record "position open, stop-loss missing" as the claim states. -/
theorem entry_stop_failure_counterexample :
    (marketC3.data "AAAUSDT").openLongRes = Except.ok ⟨1⟩ ∧
    (marketC3.data "AAAUSDT").stopRes = Except.error ⟨9⟩ ∧
    (run_once cfgW sigsW marketC3 st0).1
      = [EngAct.setLeverage "AAAUSDT" 10, EngAct.openLong "AAAUSDT" 15,
         EngAct.stopMarket "AAAUSDT" 15 196] ∧
    (run_once cfgW sigsW marketC3 st0).2.1 = st0 ∧
    st0.openSymbol = none :=
  ⟨rfl, rfl, by with_unfolding_all rfl, by with_unfolding_all rfl, rfl⟩

set_option maxRecDepth 600000 in
/-- Witness for `entry_stop_failure_amended` on the concrete failing
market `marketC3`. -/
theorem entry_stop_failure_amended_witness :
    marketC3.moversRes = Except.ok ["AAAUSDT"] ∧
    st0.openSymbol = none ∧
    (marketC3.data "AAAUSDT").openLongRes = Except.ok ⟨1⟩ ∧
    (marketC3.data "AAAUSDT").stopRes = Except.error ⟨9⟩ ∧
    ((run_once cfgW sigsW marketC3 st0).2.1 = st0 ∧
     (∀ e2, (run_once cfgW sigsW marketC3 st0).2.2 ≠ some (PyExc.api e2))) :=
  ⟨rfl, rfl, rfl, rfl,
    entry_stop_failure_amended cfgW sigsW marketC3 st0 "AAAUSDT" ⟨1⟩ ⟨9⟩
      rfl rfl rfl rfl⟩

theorem lookupTp_filter_self (l : List (String × List ℤ)) (sym : String) :
    lookupTp (l.filter fun p => !(p.1 == sym)) sym = none := by
  induction l with
  | nil => rfl
  | cons p rest ih =>
      by_cases hp : p.1 == sym
      · rw [List.filter_cons_of_neg (by simp [hp])]
        exact ih
      · rw [List.filter_cons_of_pos (by simp [hp])]
        unfold lookupTp
        rw [if_neg (by simp [hp])]
        exact ih

theorem catch_api_of_none (a : List EngAct) (s : EngineState) :
    catch_api (a, s, none) = (a, s, none) := rfl

/-- C4: whenever the exit predicate fires on the open position, the
tick (i) attempts to cancel every recorded take-profit leg and then
the stop order — tolerating ANY cancellation outcome: the market's
`cancelOutcome` is arbitrary here, and a failed stop cancellation
never blocks the closing order — (ii) then submits at most one
market closing order sized by the freshly re-queried live position
amount `positionAmt` (no order when the live amount is zero), never
by a cached quantity, and (iii) then clears the position record
(open symbol, stop id, tp entry) and ends the tick without an
exception. -/
theorem close_position_spec (cfg : EngineCfg) (sg : Sigs) (m : Market)
    (st : EngineState) (sym : String) (tpIds : List ℤ) (r : OrderResp)
    (info : ℚ × ℚ)
    (hopen : st.openSymbol = some sym)
    (htp : lookupTp st.tpOrders sym = some tpIds)
    (hfire : (load_klines sg.addInd (m.data sym).klinesRes).bars.length ≠ 0 ∧
      exit_signal (load_klines sg.addInd (m.data sym).klinesRes) 70 60 = true)
    (hclose : m.closeOrderRes sym = Except.ok r)
    (hinfo : m.posInfoRes sym = Except.ok info) :
    (run_once cfg sg m st).1
      = tpIds.map (fun oid => EngAct.cancelOrder sym (some oid))
        ++ [EngAct.cancelOrder sym st.stopOrderId]
        ++ (if 0 < m.positionAmt sym then
              [EngAct.marketClose sym "SELL" |m.positionAmt sym|]
            else if m.positionAmt sym < 0 then
              [EngAct.marketClose sym "BUY" |m.positionAmt sym|]
            else []) ∧
    (run_once cfg sg m st).2.1.openSymbol = none ∧
    (run_once cfg sg m st).2.1.stopOrderId = none ∧
    lookupTp (run_once cfg sg m st).2.1.tpOrders sym = none ∧
    (run_once cfg sg m st).2.2 = none := by
  have hbf : bf_close_position m sym
      = ((if 0 < m.positionAmt sym then
            [EngAct.marketClose sym "SELL" |m.positionAmt sym|]
          else if m.positionAmt sym < 0 then
            [EngAct.marketClose sym "BUY" |m.positionAmt sym|]
          else []), none) := by
    unfold bf_close_position
    by_cases h1 : 0 < m.positionAmt sym
    · rw [if_pos h1, if_pos h1, hclose]
    · rw [if_neg h1, if_neg h1]
      by_cases h2 : m.positionAmt sym < 0
      · rw [if_pos h2, if_pos h2, hclose]
      · rw [if_neg h2, if_neg h2]
  have hcanmap : (fun oid => try_cancel (m.cancelOutcome sym (some oid))
        (EngAct.cancelOrder sym (some oid)))
      = fun oid : ℤ => EngAct.cancelOrder sym (some oid) := by
    funext oid
    exact try_cancel_eq _ _
  have hte : te_close_position m st sym
      = (tpIds.map (fun oid => EngAct.cancelOrder sym (some oid))
          ++ [EngAct.cancelOrder sym st.stopOrderId]
          ++ (if 0 < m.positionAmt sym then
                [EngAct.marketClose sym "SELL" |m.positionAmt sym|]
              else if m.positionAmt sym < 0 then
                [EngAct.marketClose sym "BUY" |m.positionAmt sym|]
              else []),
         ⟨none, none, st.tpOrders.filter fun p => !(p.1 == sym)⟩,
         none) := by
    unfold te_close_position
    rw [htp, hbf]
    try simp only [hinfo]
    rw [Option.getD_some, hcanmap, try_cancel_eq]
    try rw [List.append_assoc]
  have hrun : run_once cfg sg m st
      = catch_api (te_close_position m st sym) := by
    unfold run_once
    try simp only [hopen]
    unfold monitor_position
    rw [if_pos hfire]
  rw [hrun, hte, catch_api_of_none]
  refine ⟨rfl, rfl, rfl, ?_, rfl⟩
  exact lookupTp_filter_self st.tpOrders sym

/-- Engine state with an open position on AAAUSDT: stop order id 2,
take-profit ids 3 and 4. -/
def stC4 : EngineState := ⟨some "AAAUSDT", some 2, [("AAAUSDT", [3, 4])]⟩

/-- Enrichment for the close-path witness: an rsi column that fires
the exit predicate (reached 75 ≥ 70 within the last three bars, then
fell from 65 to 50 across the 60 threshold). -/
def addIndC4 : List Bar → DF := fun bars =>
  ⟨bars, some [some 10, some 10, some 75, some 65, some 50],
   List.replicate bars.length (some 1), [], []⟩

/-- Market for the close-path witness (spec Scenario D): live
position amount 7, every cancellation REJECTED by the exchange
(code 99), the closing market order acknowledged. -/
def marketC4 : Market :=
  { moversRes := Except.ok ["AAAUSDT"]
    data := fun _ =>
      { symDataW with klinesRes := Except.ok (List.replicate 5 baseBar) }
    balanceRes := Except.ok 1000
    positionAmt := fun _ => 7
    closeOrderRes := fun _ => Except.ok ⟨5⟩
    posInfoRes := fun _ => Except.ok (0, 100)
    cancelOutcome := fun _ _ => CancelOutcome.apiErr ⟨99⟩ }

/-- Sigs for the close-path witness. -/
def sigsC4 : Sigs := ⟨addIndC4, fun _ => true, fun _ _ => true⟩

set_option maxRecDepth 200000 in
/-- Witness for `close_position_spec` at spec Scenario D: the open
position on AAAUSDT with every protective-order cancellation failing
(`cancelOutcome` is an exchange rejection everywhere) still submits
the market close for the live amount 7 and clears the state. -/
theorem close_position_spec_witness :
    stC4.openSymbol = some "AAAUSDT" ∧
    lookupTp stC4.tpOrders "AAAUSDT" = some [3, 4] ∧
    ((load_klines sigsC4.addInd (marketC4.data "AAAUSDT").klinesRes).bars.length ≠ 0 ∧
      exit_signal (load_klines sigsC4.addInd (marketC4.data "AAAUSDT").klinesRes) 70 60
        = true) ∧
    marketC4.closeOrderRes "AAAUSDT" = Except.ok ⟨5⟩ ∧
    marketC4.posInfoRes "AAAUSDT" = Except.ok (0, 100) ∧
    ((run_once cfgW sigsC4 marketC4 stC4).1
      = [3, 4].map (fun oid => EngAct.cancelOrder "AAAUSDT" (some oid))
        ++ [EngAct.cancelOrder "AAAUSDT" stC4.stopOrderId]
        ++ (if 0 < marketC4.positionAmt "AAAUSDT" then
              [EngAct.marketClose "AAAUSDT" "SELL" |marketC4.positionAmt "AAAUSDT"|]
            else if marketC4.positionAmt "AAAUSDT" < 0 then
              [EngAct.marketClose "AAAUSDT" "BUY" |marketC4.positionAmt "AAAUSDT"|]
            else []) ∧
     (run_once cfgW sigsC4 marketC4 stC4).2.1.openSymbol = none ∧
     (run_once cfgW sigsC4 marketC4 stC4).2.1.stopOrderId = none ∧
     lookupTp (run_once cfgW sigsC4 marketC4 stC4).2.1.tpOrders "AAAUSDT" = none ∧
     (run_once cfgW sigsC4 marketC4 stC4).2.2 = none) :=
  have hfire : (load_klines sigsC4.addInd (marketC4.data "AAAUSDT").klinesRes).bars.length ≠ 0 ∧
      exit_signal (load_klines sigsC4.addInd (marketC4.data "AAAUSDT").klinesRes) 70 60
        = true :=
    ⟨by with_unfolding_all exact fun h => absurd h (by decide),
     by with_unfolding_all rfl⟩
  ⟨rfl, rfl, hfire, rfl, rfl,
    close_position_spec cfgW sigsC4 marketC4 stC4 "AAAUSDT" [3, 4] ⟨5⟩ (0, 100)
      rfl rfl hfire rfl rfl⟩
